import Mathlib

set_option linter.unusedSectionVars false

/-!
# Verification of `fastbound_importer.py`

A shallow embedding of the column-reconciliation core of
`src/fastbound_importer.py` (function `build_mapping`, its helpers `norm`,
`ALIASES`, the `difflib.get_close_matches`/`SequenceMatcher` similarity
machinery it calls, the override loader `read_overrides`, and the
report/strict-mode tail of `main`), together with theorems settling the
specification's claims about it.

Conventions:
* Python `str` is modelled by `String`; `str.lower`/`str.isalnum` are
  modelled on their ASCII fragment (`Char.toLower`, `Char.isAlphanum`).
* Python `dict` is modelled by an association list with
  insert-or-update-in-place semantics (`setKey`), which reproduces CPython's
  insertion-ordered dicts: the key keeps its first-insertion position and
  later assignments overwrite the value.
* Python floats are modelled by `ℚ`; `difflib`'s ratios are exact rationals
  `2*M/T`, so no rounding is lost on the inputs of interest.
* Fallible code returns `Except String`.
-/

namespace FastboundImporter

/-! ## Python string primitives -/

/-- `str.lower` on the ASCII fragment, one character: `Char.toLower` maps
`A`-`Z` to `a`-`z` and leaves everything else unchanged, as CPython does for
ASCII. -/
def pyLowerChar (c : Char) : Char := Char.toLower c

/-- `s.lower()` (ASCII fragment). -/
def pyLower (s : String) : String := String.mk (s.data.map pyLowerChar)

/-- `norm` (src line 44-45):
`''.join(ch for ch in str(s).lower() if ch.isalnum())` — lowercase the whole
string, then keep only alphanumeric characters, preserving order. -/
def norm (s : String) : String :=
  String.mk ((s.data.map pyLowerChar).filter Char.isAlphanum)

/-- Python string comparison `a < b`: lexicographic on code points. -/
def pyStrLtList : List Char → List Char → Bool
  | [], [] => false
  | [], _ :: _ => true
  | _ :: _, [] => false
  | a :: as, b :: bs =>
    if a.toNat < b.toNat then true
    else if b.toNat < a.toNat then false
    else pyStrLtList as bs

/-- Python `a < b` on strings. -/
def pyStrLt (a b : String) : Bool := pyStrLtList a.data b.data

/-! ## Python dicts as insertion-ordered association lists -/

/-- Key membership of an association list (Python `k in d`). -/
def containsKey [DecidableEq κ] (m : List (κ × α)) (k : κ) : Bool :=
  m.any (fun p => p.1 = k)

/-- `d[k] = v` on an insertion-ordered dict: overwrite in place if the key is
present, else append at the end. -/
def setKey [DecidableEq κ] (m : List (κ × α)) (k : κ) (v : α) : List (κ × α) :=
  if containsKey m k then
    m.map (fun p => if p.1 = k then (k, v) else p)
  else
    m ++ [(k, v)]

/-- `d.get(k)` / `d[k]`: first (only) binding of `k`. -/
def getKey [DecidableEq κ] : List (κ × α) → κ → Option α
  | [], _ => none
  | p :: t, k => if p.1 = k then some p.2 else getKey t k

/-! ## The alias table (src lines 47-92), verbatim -/

/-- `ALIASES` (src lines 47-92): canonical concept key → synonym list, in
source order. -/
def ALIASES : List (String × List String) := [
  ("serialnumber", ["serial", "serialnumber", "s/n", "sn"]),
  ("manufacturer", ["manufacturer", "maker", "make"]),
  ("importer", ["importer"]),
  ("model", ["model", "mdl"]),
  ("type", ["type", "firearmtype", "guntype"]),
  ("caliber", ["caliber", "calibre", "gauge"]),
  ("barrellength", ["barrellength", "barrel", "bbl", "lengthofbarrel", "barrellength(in)"]),
  ("overalllength", ["overalllength", "oal"]),
  ("finish", ["finish", "color", "colour"]),
  ("countryofmanufacture", ["countryofmanufacture", "country", "manufacturecountry"]),
  ("upc", ["upc", "barcode"]),
  ("sku", ["sku", "item#", "itemnumber", "pn", "partnumber"]),
  ("acquisitiondate", ["acquisitiondate", "dateacquired", "dateofacquisition", "receiveddate"]),
  ("acquiredfromname", ["acquiredfromname", "supplier", "vendor", "acquiredfrom"]),
  ("acquiredfromaddress", ["acquiredfromaddress", "supplieraddress", "vendoraddress"]),
  ("acquiredfromffl", ["acquiredfromffl", "supplierffl", "vendorffl", "ffl"]),
  ("acquiredfromlicensetype", ["acquiredfromlicensetype", "supplierlicensetype"]),
  ("acquiredfromcity", ["acquiredfromcity", "suppliercity"]),
  ("acquiredfromstate", ["acquiredfromstate", "supplierstate"]),
  ("acquiredfromzip", ["acquiredfromzip", "supplierzip", "zipcode", "zip"]),
  ("acquisitiondocument", ["acquisitiondocument", "invoice", "ponumber", "po", "bo"]),
  ("dispositiondate", ["dispositiondate", "dateofdisposition", "datesold", "transferdate", "disposeddate"]),
  ("disposedtoname", ["disposedtoname", "customername", "buyername", "transfereename"]),
  ("disposedtoaddress", ["disposedtoaddress", "customeraddress", "buyeraddress"]),
  ("disposedtocity", ["disposedtocity", "customercity"]),
  ("disposedtostate", ["disposedtostate", "customerstate"]),
  ("disposedtozip", ["disposedtozip", "customerzip", "zip"]),
  ("disposedtoffl", ["disposedtoffl", "destinationffl", "receiverffl", "ffl"]),
  ("form4473", ["4473", "form4473", "4473number", "4473#"]),
  ("nicsnumber", ["nicsnumber", "nics", "ntn", "backgroundchecknumber"]),
  ("nicsstatus", ["nicsstatus", "backgroundstatus", "status"]),
  ("nicsexpiration", ["nicsexpiration", "nicsvaliduntil", "ntnexpire"]),
  ("transactionnumber", ["transactionnumber", "trans#", "ttn", "ntn"]),
  ("permitnumber", ["permit", "permitnumber", "cwfl", "ccw"]),
  ("permitexpiration", ["permitexpiration", "permitexpires"]),
  ("birthdate", ["dob", "dateofbirth", "birthdate"]),
  ("idnumber", ["idnumber", "driverlicense", "dl", "identificationnumber"]),
  ("idstate", ["idstate", "dlstate"]),
  ("cost", ["cost", "unitcost"]),
  ("price", ["price", "saleprice", "sellingprice", "amount"])]

/-! ## `difflib.SequenceMatcher` (CPython stdlib), as called by the source

`build_mapping` (src line 169) calls
`get_close_matches(fb_key, list(atf_norm_map.keys()), n=1, cutoff=fuzzy_cutoff)`.
`SequenceMatcher` is instantiated with `isjunk=None`, so `bjunk` is always
empty: of the four extension loops in `find_longest_match`, the two junk ones
never fire, and only the "autojunk" purge of popular elements (sequences of
length ≥ 200) affects `b2j`. -/

/-- `__chain_b`, first part: `b2j` maps each element of `b` to the ascending
list of its indices. -/
def b2jRaw (b : List Char) : List (Char × List Nat) :=
  b.enum.foldl
    (fun m p => setKey m p.2 (((getKey m p.2).getD []) ++ [p.1])) []

/-- `__chain_b`, autojunk part: for `len(b) >= 200` delete elements occurring
more than `len(b) // 100 + 1` times (they go to `bpopular`, not `bjunk`). -/
def b2jOf (b : List Char) : List (Char × List Nat) :=
  let raw := b2jRaw b
  if 200 ≤ b.length then
    let ntest := b.length / 100 + 1
    raw.filter (fun p => decide (p.2.length ≤ ntest))
  else raw

/-- `a[i] == b[j]` with bounds guards (indices are always in range at the
call sites, which mirror the guarded loops of the source). -/
def charEqAt (a b : List Char) (i j : Nat) : Bool :=
  match a.get? i, b.get? j with
  | some x, some y => x == y
  | _, _ => false

/-- The first extension loop of `find_longest_match`:
`while besti > alo and bestj > blo and a[besti-1] == b[bestj-1]` (the
`not isbjunk` conjunct is vacuous, `bjunk = ∅`). The fuel `besti` bounds the
number of decrements exactly. -/
def extendLeftAux (a b : List Char) (alo blo : Nat) :
    Nat → Nat × Nat × Nat → Nat × Nat × Nat
  | 0, st => st
  | fuel + 1, (bi, bj, k) =>
    if alo < bi ∧ blo < bj ∧ charEqAt a b (bi - 1) (bj - 1) then
      extendLeftAux a b alo blo fuel (bi - 1, bj - 1, k + 1)
    else (bi, bj, k)

/-- The second extension loop:
`while besti+bestsize < ahi and bestj+bestsize < bhi and a[...] == b[...]`.
Fuel `ahi - (besti + bestsize)` bounds the number of increments exactly. -/
def extendRightAux (a b : List Char) (ahi bhi : Nat) :
    Nat → Nat × Nat × Nat → Nat × Nat × Nat
  | 0, st => st
  | fuel + 1, (bi, bj, k) =>
    if bi + k < ahi ∧ bj + k < bhi ∧ charEqAt a b (bi + k) (bj + k) then
      extendRightAux a b ahi bhi fuel (bi, bj, k + 1)
    else (bi, bj, k)

/-- `find_longest_match(alo, ahi, blo, bhi)` with `isjunk=None`.

The inner `for j in b2j.get(a[i], [])` loop does `continue` on `j < blo` and
`break` on `j >= bhi`; since the index lists of `b2j` are ascending, the
`break` is equivalent to keeping only `j < bhi`, so both guards are one
filter.  `newj2len[j] = j2len.get(j-1, 0) + 1` reads the previous row
(`j-1 = -1` is never a key, hence the `j = 0` case yields the default `0`),
and the best block is updated only on strictly larger size, so earliest `i`
then earliest `j` win ties.  `i + 1 - k` is the source's `i-k+1` (the chain
length `k` never exceeds `i+1`, so truncated subtraction never truncates). -/
def findLongestMatch (a b : List Char) (b2j : List (Char × List Nat))
    (alo ahi blo bhi : Nat) : Nat × Nat × Nat :=
  let step := fun (st : List (Nat × Nat) × (Nat × Nat × Nat)) (i : Nat) =>
    let j2len := st.1
    let js := ((getKey b2j (a.getD i default)).getD []).filter
      (fun j => decide (blo ≤ j ∧ j < bhi))
    js.foldl
      (fun (st2 : List (Nat × Nat) × (Nat × Nat × Nat)) (j : Nat) =>
        let k := (if j = 0 then 0 else (getKey j2len (j - 1)).getD 0) + 1
        let newj2len := st2.1 ++ [(j, k)]
        if st2.2.2.2 < k then (newj2len, (i + 1 - k, j + 1 - k, k))
        else (newj2len, st2.2))
      ([], st.2)
  let dp := (List.range' alo (ahi - alo)).foldl step ([], (alo, blo, 0))
  extendRightAux a b ahi bhi (ahi - (dp.2.1 + dp.2.2.2))
    (extendLeftAux a b alo blo dp.2.1 dp.2)

/-- `get_matching_blocks`, reduced to the total size of the matching blocks
(all `ratio` needs).  The queue recursion of the source visits, for each
window, the longest match plus the two sub-windows strictly to its left and
right; every recursive window is strictly smaller in `(ahi-alo)+(bhi-blo)`,
so fuel `a.length + b.length + 1` (from the top-level call) never runs out. -/
def matchingSizeAux (a b : List Char) (b2j : List (Char × List Nat)) :
    Nat → Nat → Nat → Nat → Nat → Nat
  | 0, _, _, _, _ => 0
  | fuel + 1, alo, ahi, blo, bhi =>
    let r := findLongestMatch a b b2j alo ahi blo bhi
    let i := r.1
    let j := r.2.1
    let k := r.2.2
    if k = 0 then 0
    else
      k + (if alo < i ∧ blo < j then matchingSizeAux a b b2j fuel alo i blo j else 0)
        + (if i + k < ahi ∧ j + k < bhi then
            matchingSizeAux a b b2j fuel (i + k) ahi (j + k) bhi else 0)

/-- Total number of matched elements between `a` and `b`
(`sum(triple[-1] for triple in s.get_matching_blocks())`). -/
def matchingSize (a b : List Char) : Nat :=
  matchingSizeAux a b (b2jOf b) (a.length + b.length + 1) 0 a.length 0 b.length

/-- `_calculate_ratio(matches, length)`: `2.0 * matches / length`, or `1.0`
for two empty sequences (built with `mkRat`, the exact rational value of the
float quotient of these small integers). -/
def calcRatioOf (m len : Nat) : ℚ :=
  if len = 0 then 1 else mkRat (2 * m) len

/-- `SequenceMatcher(None, a, b).ratio()`. -/
def ratioOf (a b : List Char) : ℚ :=
  calcRatioOf (matchingSize a b) (a.length + b.length)

/-- `real_quick_ratio`: upper bound `2*min(la,lb)/(la+lb)`. -/
def realQuickRatioOf (a b : List Char) : ℚ :=
  calcRatioOf (min a.length b.length) (a.length + b.length)

/-- `fullbcount`: multiplicity table of `b`. -/
def fullCount (b : List Char) : List (Char × Int) :=
  b.foldl (fun m c => setKey m c (((getKey m c).getD 0) + 1)) []

/-- The `avail` loop of `quick_ratio`, counting `a`-elements still available
in `b` (`avail[x]` may go negative, hence `Int`). -/
def quickMatches (a : List Char) (fullb : List (Char × Int)) : Nat :=
  (a.foldl
    (fun (st : List (Char × Int) × Nat) c =>
      let numb : Int := match getKey st.1 c with
        | some v => v
        | none => (getKey fullb c).getD 0
      (setKey st.1 c (numb - 1), if 0 < numb then st.2 + 1 else st.2))
    ([], 0)).2

/-- `quick_ratio`: multiset-intersection upper bound on `ratio`. -/
def quickRatioOf (a b : List Char) : ℚ :=
  calcRatioOf (quickMatches a (fullCount b)) (a.length + b.length)

/-! ## `difflib.get_close_matches` with `n=1` -/

/-- The score `get_close_matches` ranks a possibility `x` by:
`SequenceMatcher` with `seq1 = x`, `seq2 = word`. -/
def fuzzyScore (x word : String) : ℚ := ratioOf x.data word.data

/-- The acceptance test of `get_close_matches`:
`real_quick_ratio() >= cutoff and quick_ratio() >= cutoff and ratio() >= cutoff`. -/
def fuzzyAccepts (cutoff : ℚ) (x word : String) : Bool :=
  decide (cutoff ≤ realQuickRatioOf x.data word.data) &&
  decide (cutoff ≤ quickRatioOf x.data word.data) &&
  decide (cutoff ≤ fuzzyScore x word)

/-- One comparison step of `heapq.nlargest(1, ·)`: keep the pair that is
greater under Python tuple comparison — by score, ties by the
lexicographically greater string. -/
def lexMax2 (p p' : ℚ × String) : ℚ × String :=
  if p.1 < p'.1 ∨ (p.1 = p'.1 ∧ pyStrLt p.2 p'.2 = true) then p' else p

/-- `heapq.nlargest(1, result)` over `(score, possibility)` pairs: the
maximum under Python tuple comparison, `none` on the empty list. -/
def maxLex : List (ℚ × String) → Option (ℚ × String)
  | [] => none
  | p :: t => some (t.foldl lexMax2 p)

/-- `get_close_matches(word, possibilities, n=1, cutoff)`.  The `n > 0` check
passes (`n = 1` at the only call site); the cutoff bounds check raises
`ValueError` for `cutoff` outside `[0, 1]`, modelled as `Except.error`. -/
def getCloseMatches (word : String) (possibilities : List String) (cutoff : ℚ) :
    Except String (List String) :=
  if 0 ≤ cutoff ∧ cutoff ≤ 1 then
    let result := (possibilities.filter (fun x => fuzzyAccepts cutoff x word)).map
      (fun x => (fuzzyScore x word, x))
    Except.ok (match maxLex result with | none => [] | some p => [p.2])
  else Except.error "ValueError: cutoff must be in [0.0, 1.0]"

/-! ## `build_mapping` (src lines 121-181) -/

/-- One row of the `details` trace: (FastBound column, ATF source or `""`,
match type). -/
abbrev Row := String × String × String

/-- The state `(mapping, details)` built by `build_mapping`. -/
abbrev MapState := List (String × Option String) × List Row

/-- `atf_norm_map = {norm(c): c for c in atf_cols}` (src line 122).  Python
dict-comprehension semantics: a key keeps the position of its first
occurrence, but a later duplicate overwrites the value — so each normalized
key maps to the **last** column producing it. -/
def atfNormMap (atf_cols : List String) : List (String × String) :=
  atf_cols.foldl (fun m c => setKey m (norm c) c) []

/-- One iteration of the override loop (src lines 128-141). -/
def overrideStep (atf_cols : List String) (idx : List (String × String))
    (st : MapState) (p : String × String) : MapState :=
  if p.2 ∈ atf_cols then
    (setKey st.1 p.1 (some p.2), st.2 ++ [(p.1, p.2, "OVERRIDE")])
  else
    match getKey idx (norm p.2) with
    | some v => (setKey st.1 p.1 (some v), st.2 ++ [(p.1, v, "OVERRIDE(norm)")])
    | none => (setKey st.1 p.1 none, st.2 ++ [(p.1, "", "OVERRIDE-NOTFOUND")])

/-- Pass 1: `for fb_col, atf_src in overrides.items()` (src lines 128-141). -/
def pass1 (atf_cols : List String) (idx : List (String × String)) :
    List (String × String) → MapState → MapState
  | [], st => st
  | p :: rest, st => pass1 atf_cols idx rest (overrideStep atf_cols idx st p)

/-- The alias scan (src lines 154-163).  A group whose condition matches but
whose synonyms find nothing in the index leaves `hit = None` and the outer
loop continues with later groups; `if hit: break` tests Python truthiness,
which here coincides with `hit is not None` because every index value paired
with the normalization of a table synonym is a nonempty string. -/
def aliasHit (idx : List (String × String)) (fbKey : String) : Option String :=
  ALIASES.findSome? (fun g =>
    if fbKey = g.1 ∨ fbKey ∈ (g.2 ++ [g.1]).map norm then
      (g.2 ++ [g.1]).findSome? (fun a => getKey idx (norm a))
    else none)

/-- Pass-2 resolution of a single FastBound column (src lines 147-175):
direct normalized lookup, then alias scan, then fuzzy, else missing.
Returns (mapping value, details source field, match type). -/
def resolveOne (idx : List (String × String)) (cutoff : ℚ) (fb_col : String) :
    Except String (Option String × String × String) :=
  let fb_key := norm fb_col
  match getKey idx fb_key with
  | some v => Except.ok (some v, v, "DIRECT")
  | none =>
    match aliasHit idx fb_key with
    | some hit => Except.ok (some hit, hit, "ALIAS")
    | none =>
      match getCloseMatches fb_key (idx.map Prod.fst) cutoff with
      | Except.error e => Except.error e
      | Except.ok [] => Except.ok (none, "", "MISSING")
      | Except.ok (c0 :: _) =>
        -- `atf_norm_map[cand[0]]`: `cand[0]` is always a key of the index.
        let v := (getKey idx c0).getD ""
        Except.ok (some v, v, "FUZZY")

/-- Pass 2: `for fb_col in fb_cols: if fb_col in mapping: continue; ...`
(src lines 144-175). -/
def pass2 (idx : List (String × String)) (cutoff : ℚ) :
    List String → MapState → Except String MapState
  | [], st => Except.ok st
  | c :: rest, st =>
    if containsKey st.1 c then pass2 idx cutoff rest st
    else
      match resolveOne idx cutoff c with
      | Except.error e => Except.error e
      | Except.ok r =>
        pass2 idx cutoff rest (setKey st.1 c r.1, st.2 ++ [(c, r.2.1, r.2.2)])

/-- `build_mapping(atf_cols, fb_cols, overrides, fuzzy_cutoff)`
(src lines 121-181).  The summary logging (lines 177-180) has no effect on
the returned value and is omitted. -/
def build_mapping (atf_cols fb_cols : List String)
    (overrides : List (String × String)) (fuzzy_cutoff : ℚ) :
    Except String MapState :=
  let idx := atfNormMap atf_cols
  pass2 idx fuzzy_cutoff fb_cols (pass1 atf_cols idx overrides ([], []))

/-! ## `read_overrides` (src lines 94-119)

The file system and the pandas/json/yaml parsers are collaborators; an
override file is modelled by what those parsers would hand back: its
existence, its lowercased-comparable suffix, its CSV header and rows, and
its parsed JSON/YAML mapping.  The dispatch logic and every raise of
`read_overrides` itself are embedded faithfully. -/

/-- The exceptions `read_overrides` can raise.  `valueError` covers both the
missing-CSV-columns raise (line 110, the spec's ValidationError) and the
unsupported-extension raise (line 119, the spec's ConfigError); the source
uses the same Python type for both, distinguished only by message. -/
inductive OvErr where
  | fileNotFound (msg : String)
  | valueError (msg : String)
  | nameError (msg : String)
  | runtimeError (msg : String)
deriving Repr, DecidableEq

/-- An override file as seen through the collaborator parsers. -/
structure OvFile where
  present : Bool
  suffix : String
  csvCols : List String
  csvRows : List (List String)
  yamlVal : List (String × String)
deriving Repr, DecidableEq

/-- `str.strip()` (ASCII-whitespace fragment). -/
def pyStrip (s : String) : String :=
  String.mk (((s.data.dropWhile Char.isWhitespace).reverse.dropWhile
    Char.isWhitespace).reverse)

/-- `row[colName]` for a CSV row aligned with the header. -/
def rowGet (cols row : List String) (c : String) : String :=
  match cols.findIdx? (fun x => x = c) with
  | some i => row.getD i ""
  | none => ""

/-- `read_overrides(path)` (src lines 94-119).  `hasYaml` is the module-level
`HAS_YAML` flag (lines 38-42).

The `.json` branch (line 113) calls `json.loads`, but the module never
imports `json` (the imports, lines 30-39, are argparse, logging, difflib,
pandas, numpy, pathlib and optionally yaml), so evaluating that branch
raises `NameError` before any parsing happens. -/
def read_overrides (hasYaml : Bool) (f : OvFile) :
    Except OvErr (List (String × String)) :=
  if ¬ f.present then
    Except.error (OvErr.fileNotFound "Arquivo de mapeamento não encontrado")
  else if pyLower f.suffix = ".csv" then
    if ["FastBound Column", "ATF Source"].all (fun c => f.csvCols.contains c) then
      Except.ok (f.csvRows.foldl
        (fun m r =>
          setKey m (pyStrip (rowGet f.csvCols r "FastBound Column"))
            (pyStrip (rowGet f.csvCols r "ATF Source")))
        [])
    else
      Except.error (OvErr.valueError
        "CSV de override deve ter colunas FastBound Column e ATF Source.")
  else if pyLower f.suffix = ".json" then
    Except.error (OvErr.nameError "name json is not defined")
  else if pyLower f.suffix = ".yml" ∨ pyLower f.suffix = ".yaml" then
    if hasYaml then Except.ok f.yamlVal
    else Except.error (OvErr.runtimeError "pyyaml não instalado. Rode: pip install pyyaml")
  else
    Except.error (OvErr.valueError
      "Formato de override não suportado. Use CSV, JSON ou YAML.")

/-! ## Report builder and strict-mode tail of `main` (src lines 249-296) -/

/-- `l₂` starts `l₁`...: does `need` occur at the head of `hay`? -/
def listStarts : List Char → List Char → Bool
  | _, [] => true
  | [], _ :: _ => false
  | a :: as, b :: bs => a == b && listStarts as bs

/-- Substring containment on char lists. -/
def listHasSub : List Char → List Char → Bool
  | [], need => need.isEmpty
  | hay@(_ :: t), need => listStarts hay need || listHasSub t need

/-- Python `needle in haystack` on strings: substring containment. -/
def strHasSub (hay need : String) : Bool := listHasSub hay.data need.data

/-- Python truthiness of `mapping.get(c)` being falsy (src lines 250, 290):
the key is absent, bound to `None`, or bound to the empty string. -/
def pyFalsyGet (m : List (String × Option String)) (c : String) : Bool :=
  match getKey m c with
  | some (some s) => s = ""
  | some none => true
  | none => true

/-- The per-column hint accumulation of the Missing & Guidance sheet
(src lines 253-284): `key = col.lower()`, then fourteen independent
substring-keyword checks appending their hint in order, then the generic
fallback if none fired. -/
def guidanceHints (col : String) : List String :=
  let key := pyLower col
  let hints : List String := []
  let hints := if ["serial", "sn"].any (fun k => strHasSub key k) then
    hints ++ ["Número de série – marcação na arma / 4473 / registro anterior."] else hints
  let hints := if ["manufacturer", "mfr", "maker", "make"].any (fun k => strHasSub key k) then
    hints ++ ["Fabricante – marcação do frame/receiver; nota do fornecedor."] else hints
  let hints := if ["importer"].any (fun k => strHasSub key k) then
    hints ++ ["Importador – marcação no cano/frame; invoice de entrada."] else hints
  let hints := if ["model"].any (fun k => strHasSub key k) then
    hints ++ ["Modelo – marcação na arma; invoice/packing slip."] else hints
  let hints := if ["caliber", "gauge"].any (fun k => strHasSub key k) then
    hints ++ ["Calibre/ga – gravado no cano/slide; ficha do fabricante."] else hints
  let hints := if ["type"].any (fun k => strHasSub key k) then
    hints ++ ["Tipo – pistol/revolver/rifle/shotgun/receiver/other."] else hints
  let hints := if ["barrel", "length", "oal"].any (fun k => strHasSub key k) then
    hints ++ ["Comprimento de cano/OAL – ficha técnica; inspeção."] else hints
  let hints := if ["finish", "color"].any (fun k => strHasSub key k) then
    hints ++ ["Acabamento/cor – inspeção / descrição do fabricante."] else hints
  let hints := if ["upc", "sku"].any (fun k => strHasSub key k) then
    hints ++ ["UPC/SKU – caixa do produto; invoice."] else hints
  let hints := if ["acq", "acquisition", "received", "source", "supplier", "vendor"].any
      (fun k => strHasSub key k) then
    hints ++ ["Dados de aquisição – fornecedor, data, invoice/PO."] else hints
  let hints := if ["dispo", "dispose", "transferee", "customer", "buyer", "4473"].any
      (fun k => strHasSub key k) then
    hints ++ ["Dados de disposição – cliente/FFL, data, 4473, NICS."] else hints
  let hints := if ["nics", "ttn", "poc", "background"].any (fun k => strHasSub key k) then
    hints ++ ["Background – NICS/POC (número/status/expiração)."] else hints
  let hints := if ["ffl", "license"].any (fun k => strHasSub key k) then
    hints ++ ["FFL – nº/expiração do destinatário; cópia arquivada."] else hints
  let hints := if ["cost", "price", "amount", "msrp"].any (fun k => strHasSub key k) then
    hints ++ ["Valores – custo/preço; ERP/nota fiscal."] else hints
  if hints = [] then
    ["Verificar notas de entrada, 4473, cópia de FFL e marcações físicas."]
  else hints

/-- The list `missing` of src line 250: the FastBound columns whose mapping
value is Python-falsy (absent, `None`, or `""`) — note this includes
OVERRIDE-NOTFOUND targets that are FastBound columns, not only MISSING
ones. -/
def missingList (fb_cols : List String) (mapping : List (String × Option String)) :
    List String :=
  fb_cols.filter (fun c => pyFalsyGet mapping c)

/-- The rows of the Missing & Guidance sheet (src lines 251-285):
one row per entry of `missing`, with the hints joined by the fixed
separator. -/
def guidanceRows (fb_cols : List String) (mapping : List (String × Option String)) :
    List (String × String) :=
  (missingList fb_cols mapping).map
    (fun c => (c, String.intercalate " | " (guidanceHints c)))

/-- What the process does after writing the workbook. -/
inductive ProcOutcome where
  /-- Reaches the final `log.info` success confirmations (src lines 295-296)
  and exits 0. -/
  | success
  /-- The claimed strict-mode failure: message on stderr and `sys.exit(2)`. -/
  | exit2
  /-- What actually happens on the strict-failure branch: line 292 evaluates
  `sys.stderr`, but `sys` is never imported, so the interpreter raises
  `NameError`, prints a traceback and exits with status 1; no success
  confirmation is emitted. -/
  | nameErrorCrash
deriving Repr, DecidableEq

/-- `missing_count` (src line 290). -/
def missingCount (fb_cols : List String)
    (mapping : List (String × Option String)) : Nat :=
  (missingList fb_cols mapping).length

/-- The status tail of `main` (src lines 289-296):
`if missing_count and args.strict:` take the failure branch, else log
success. -/
def strictTail (strict : Bool) (fb_cols : List String)
    (mapping : List (String × Option String)) : ProcOutcome :=
  if missingCount fb_cols mapping ≠ 0 ∧ strict then ProcOutcome.nameErrorCrash
  else ProcOutcome.success

/-! ## Descriptions used by the theorem statements -/

/-- The keys of an association list, in order. -/
def keysOf (m : List (κ × α)) : List κ := m.map Prod.fst

/-- The columns pass 2 actually processes: the target columns in order,
skipping those already claimed (by an override, or by an earlier duplicate
occurrence). -/
def pass2Cols (avoid : List String) : List String → List String
  | [] => []
  | c :: t => if c ∈ avoid then pass2Cols avoid t else c :: pass2Cols (avoid ++ [c]) t

/-- The mapping value a `details` row announces: `None` for
MISSING/OVERRIDE-NOTFOUND rows, the source field otherwise. -/
def rowVal (r : Row) : Option String :=
  if r.2.2 = "MISSING" ∨ r.2.2 = "OVERRIDE-NOTFOUND" then none else some r.2.1

/-- Python tuple comparison `(score, key) < (score', key')`. -/
def lexLt (p p' : ℚ × String) : Prop :=
  p.1 < p'.1 ∨ (p.1 = p'.1 ∧ pyStrLt p.2 p'.2 = true)

/-- Reflexive closure of `lexLt`. -/
def lexLe (p p' : ℚ × String) : Prop := lexLt p p' ∨ p = p'

/-- `v` is the fuzzy resolution the source selects for `word`: the value at
an accepted key that is maximal under Python `(score, key)` comparison —
highest score, ties to the lexicographically greatest key. -/
def FuzzyBest (idx : List (String × String)) (q : ℚ) (word v : String) : Prop :=
  ∃ k, k ∈ keysOf idx ∧ fuzzyAccepts q k word = true ∧ getKey idx k = some v ∧
    ∀ k' ∈ keysOf idx, fuzzyAccepts q k' word = true →
      lexLe (fuzzyScore k' word, k') (fuzzyScore k word, k)

/-- Everything a single `details` row guarantees about itself, by match
type.  `idx` is the normalized source index the run used. -/
def KindFacts (atf_cols : List String) (idx : List (String × String)) (q : ℚ)
    (r : Row) : Prop :=
  (r.2.2 = "OVERRIDE" ∧ r.2.1 ∈ atf_cols) ∨
  (r.2.2 = "OVERRIDE(norm)" ∧ ∃ k, getKey idx k = some r.2.1) ∨
  (r.2.2 = "OVERRIDE-NOTFOUND" ∧ r.2.1 = "") ∨
  (r.2.2 = "DIRECT" ∧ getKey idx (norm r.1) = some r.2.1) ∨
  (r.2.2 = "ALIAS" ∧ ∃ k, getKey idx k = some r.2.1) ∨
  (r.2.2 = "FUZZY" ∧ FuzzyBest idx q (norm r.1) r.2.1) ∨
  (r.2.2 = "MISSING" ∧ r.2.1 = "" ∧
    ∀ k ∈ keysOf idx, fuzzyAccepts q k (norm r.1) = false)

/-- The guidance keyword rules of src lines 255-282, as an ordered
(keyword set, hint) table. -/
def guidanceRules : List (List String × String) := [
  (["serial", "sn"], "Número de série – marcação na arma / 4473 / registro anterior."),
  (["manufacturer", "mfr", "maker", "make"], "Fabricante – marcação do frame/receiver; nota do fornecedor."),
  (["importer"], "Importador – marcação no cano/frame; invoice de entrada."),
  (["model"], "Modelo – marcação na arma; invoice/packing slip."),
  (["caliber", "gauge"], "Calibre/ga – gravado no cano/slide; ficha do fabricante."),
  (["type"], "Tipo – pistol/revolver/rifle/shotgun/receiver/other."),
  (["barrel", "length", "oal"], "Comprimento de cano/OAL – ficha técnica; inspeção."),
  (["finish", "color"], "Acabamento/cor – inspeção / descrição do fabricante."),
  (["upc", "sku"], "UPC/SKU – caixa do produto; invoice."),
  (["acq", "acquisition", "received", "source", "supplier", "vendor"], "Dados de aquisição – fornecedor, data, invoice/PO."),
  (["dispo", "dispose", "transferee", "customer", "buyer", "4473"], "Dados de disposição – cliente/FFL, data, 4473, NICS."),
  (["nics", "ttn", "poc", "background"], "Background – NICS/POC (número/status/expiração)."),
  (["ffl", "license"], "FFL – nº/expiração do destinatário; cópia arquivada."),
  (["cost", "price", "amount", "msrp"], "Valores – custo/preço; ERP/nota fiscal.")]

/-- Evaluating a rule table as the source's if-chain does: append the hint
of every rule whose keyword set matches. -/
def chainEval (rules : List (List String × String)) (key : String)
    (acc : List String) : List String :=
  rules.foldl
    (fun acc g => if g.1.any (fun k => strHasSub key k) then acc ++ [g.2] else acc)
    acc

/-- The hints of the rules matching column `c`, in rule order. -/
def matchedHints (c : String) : List String :=
  (guidanceRules.filter (fun g => g.1.any (fun k => strHasSub (pyLower c) k))).map
    Prod.snd

/-- The generic fallback hint (src line 284). -/
def fallbackHint : String :=
  "Verificar notas de entrada, 4473, cópia de FFL e marcações físicas."

/-- Does the trace leave column `c` unresolved (MISSING or
OVERRIDE-NOTFOUND)? -/
def isUnresolvedRow (details : List Row) (c : String) : Bool :=
  match getKey details c with
  | some pr => decide (pr.2 = "MISSING" ∨ pr.2 = "OVERRIDE-NOTFOUND")
  | none => false

/-- The invariant relating the `(mapping, details)` state `build_mapping`
threads through its two passes: row identifiers are distinct, the mapping
keys are exactly the traced columns, and every row is truthful (its kind
facts hold and the mapping stores the value it announces). -/
def StInv (atf_cols : List String) (idx : List (String × String)) (q : ℚ)
    (st : MapState) : Prop :=
  (st.2.map (fun r => r.1)).Nodup ∧
  (∀ c, containsKey st.1 c = true ↔ c ∈ st.2.map (fun r => r.1)) ∧
  (∀ r ∈ st.2, KindFacts atf_cols idx q r ∧ getKey st.1 r.1 = some (rowVal r))

/-! # Lemmas -/

/-! ## Association-list (Python dict) lemmas -/

section DictLemmas

variable {κ : Type} {α : Type} [DecidableEq κ]

theorem getKey_nil (k : κ) : getKey ([] : List (κ × α)) k = none := rfl

theorem getKey_cons (p : κ × α) (t : List (κ × α)) (k : κ) :
    getKey (p :: t) k = if p.1 = k then some p.2 else getKey t k := rfl

theorem keysOf_nil : keysOf ([] : List (κ × α)) = [] := rfl

theorem keysOf_cons (p : κ × α) (t : List (κ × α)) :
    keysOf (p :: t) = p.1 :: keysOf t := rfl

theorem keysOf_append (m₁ m₂ : List (κ × α)) :
    keysOf (m₁ ++ m₂) = keysOf m₁ ++ keysOf m₂ := by
  simp [keysOf]

theorem getKey_mem {m : List (κ × α)} {k : κ} {v : α}
    (h : getKey m k = some v) : (k, v) ∈ m := by
  induction m with
  | nil => simp [getKey] at h
  | cons p t ih =>
    obtain ⟨p1, p2⟩ := p
    rw [getKey_cons] at h
    by_cases hp : p1 = k
    · subst hp
      rw [if_pos rfl] at h
      injection h with h
      subst h
      exact List.mem_cons_self _ _
    · rw [if_neg hp] at h
      exact List.mem_cons_of_mem _ (ih h)

theorem getKey_isSome_of_mem_keys {m : List (κ × α)} {k : κ}
    (h : k ∈ keysOf m) : ∃ v, getKey m k = some v := by
  induction m with
  | nil => simp [keysOf] at h
  | cons p t ih =>
    by_cases hp : p.1 = k
    · exact ⟨p.2, by rw [getKey_cons, if_pos hp]⟩
    · have hk : k ∈ keysOf t := by
        rw [keysOf_cons] at h
        rcases List.mem_cons.1 h with h1 | h1
        · exact absurd h1.symm hp
        · exact h1
      rcases ih hk with ⟨v, hv⟩
      exact ⟨v, by rw [getKey_cons, if_neg hp, hv]⟩

theorem mem_keys_of_getKey {m : List (κ × α)} {k : κ} {v : α}
    (h : getKey m k = some v) : k ∈ keysOf m := by
  simpa [keysOf] using List.mem_map_of_mem Prod.fst (getKey_mem h)

theorem containsKey_iff {m : List (κ × α)} {k : κ} :
    containsKey m k = true ↔ k ∈ keysOf m := by
  induction m with
  | nil => simp [containsKey, keysOf]
  | cons p t ih =>
    simp only [containsKey, List.any_cons, Bool.or_eq_true, decide_eq_true_eq,
      keysOf_cons, List.mem_cons]
    simp only [containsKey] at ih
    constructor
    · rintro (h | h)
      · exact Or.inl h.symm
      · exact Or.inr (ih.1 h)
    · rintro (h | h)
      · exact Or.inl h.symm
      · exact Or.inr (ih.2 h)

theorem keysOf_setKey_of_contains {m : List (κ × α)} {k : κ} (v : α)
    (h : containsKey m k = true) : keysOf (setKey m k v) = keysOf m := by
  simp only [setKey, if_pos h, keysOf, List.map_map]
  apply List.map_congr_left
  intro p _
  by_cases hp : p.1 = k <;> simp [hp]

theorem keysOf_setKey_of_not_contains {m : List (κ × α)} {k : κ} (v : α)
    (h : ¬ containsKey m k = true) : keysOf (setKey m k v) = keysOf m ++ [k] := by
  simp [setKey, if_neg h, keysOf]

theorem mem_keysOf_setKey {m : List (κ × α)} {k k' : κ} {v : α} :
    k' ∈ keysOf (setKey m k v) ↔ k' ∈ keysOf m ∨ k' = k := by
  by_cases h : containsKey m k = true
  · rw [keysOf_setKey_of_contains v h]
    constructor
    · exact Or.inl
    · rintro (h1 | rfl)
      · exact h1
      · exact containsKey_iff.1 h
  · rw [keysOf_setKey_of_not_contains v h]
    simp

theorem getKey_append (m₁ m₂ : List (κ × α)) (k : κ) :
    getKey (m₁ ++ m₂) k = (getKey m₁ k).or (getKey m₂ k) := by
  induction m₁ with
  | nil => simp [getKey]
  | cons p t ih =>
    by_cases hp : p.1 = k
    · simp [getKey_cons, hp]
    · simp [getKey_cons, hp, ih]

theorem getKey_mapUpdate_self {m : List (κ × α)} {k : κ} (v : α)
    (h : k ∈ keysOf m) :
    getKey (m.map (fun p => if p.1 = k then (k, v) else p)) k = some v := by
  induction m with
  | nil => simp [keysOf] at h
  | cons p t ih =>
    by_cases hp : p.1 = k
    · simp [getKey_cons, hp]
    · have hk : k ∈ keysOf t := by
        rw [keysOf_cons] at h
        rcases List.mem_cons.1 h with h1 | h1
        · exact absurd h1.symm hp
        · exact h1
      rw [List.map_cons, if_neg hp, getKey_cons, if_neg hp]
      exact ih hk

theorem getKey_mapUpdate_ne {m : List (κ × α)} {k : κ} (v : α) {k' : κ}
    (h : k' ≠ k) :
    getKey (m.map (fun p => if p.1 = k then (k, v) else p)) k' = getKey m k' := by
  induction m with
  | nil => simp [getKey]
  | cons p t ih =>
    by_cases hp : p.1 = k
    · have h1 : ¬ ((k, v).1 = k') := fun hk => h hk.symm
      have h2 : ¬ (p.1 = k') := by rw [hp]; intro hk; exact h hk.symm
      rw [List.map_cons, if_pos hp, getKey_cons, if_neg h1, getKey_cons, if_neg h2]
      exact ih
    · by_cases hp' : p.1 = k'
      · rw [List.map_cons, if_neg hp, getKey_cons, if_pos hp', getKey_cons, if_pos hp']
      · rw [List.map_cons, if_neg hp, getKey_cons, if_neg hp', getKey_cons, if_neg hp']
        exact ih

theorem getKey_setKey_self (m : List (κ × α)) (k : κ) (v : α) :
    getKey (setKey m k v) k = some v := by
  by_cases h : containsKey m k = true
  · rw [setKey, if_pos h]
    exact getKey_mapUpdate_self v (containsKey_iff.1 h)
  · rw [setKey, if_neg h, getKey_append]
    have hk : getKey m k = none := by
      cases hg : getKey m k with
      | none => rfl
      | some v' => exact absurd (containsKey_iff.2 (mem_keys_of_getKey hg)) h
    simp [hk, getKey]

theorem getKey_setKey_ne (m : List (κ × α)) (k : κ) (v : α) {k' : κ}
    (h : k' ≠ k) : getKey (setKey m k v) k' = getKey m k' := by
  by_cases hc : containsKey m k = true
  · rw [setKey, if_pos hc]
    exact getKey_mapUpdate_ne v h
  · rw [setKey, if_neg hc, getKey_append]
    have hnone : getKey [(k, v)] k' = none := by
      have hne : ¬ ((k, v).1 = k') := by
        intro hk
        exact h hk.symm
      rw [getKey_cons, if_neg hne, getKey_nil]
    rw [hnone]
    cases getKey m k' <;> rfl

theorem getKey_of_mem_nodup {m : List (κ × α)} {k : κ} {v : α}
    (hnd : (keysOf m).Nodup) (h : (k, v) ∈ m) : getKey m k = some v := by
  induction m with
  | nil => simp at h
  | cons p t ih =>
    rw [keysOf_cons, List.nodup_cons] at hnd
    rcases List.mem_cons.1 h with h1 | h1
    · cases h1.symm
      rw [getKey_cons, if_pos rfl]
    · have hp : ¬ p.1 = k := by
        intro hk
        exact hnd.1 (hk ▸ (by simpa [keysOf] using List.mem_map_of_mem Prod.fst h1))
      rw [getKey_cons, if_neg hp]
      exact ih hnd.2 h1

end DictLemmas

/-! ## `getLast?` helpers -/

theorem getLast?_cons_or {α : Type} : ∀ (l : List α) (a : α),
    (a :: l).getLast? = l.getLast?.or (some a)
  | [], _ => rfl
  | b :: t, a => by
    rw [List.getLast?_cons_cons, getLast?_cons_or t b]
    cases t.getLast? <;> rfl

theorem mem_of_getLast?_eq_some {α : Type} :
    ∀ {l : List α} {a : α}, l.getLast? = some a → a ∈ l
  | [], _, h => by simp at h
  | b :: t, a, h => by
    rw [getLast?_cons_or] at h
    cases ht : t.getLast? with
    | none =>
      rw [ht] at h
      injection h with h
      exact h ▸ List.mem_cons_self _ _
    | some x =>
      rw [ht] at h
      injection h with h
      exact List.mem_cons_of_mem _ (mem_of_getLast?_eq_some (h ▸ ht))

/-! ## The normalized source index -/

theorem getKey_normFold (cols : List String) (m : List (String × String))
    (k : String) :
    getKey (cols.foldl (fun m c => setKey m (norm c) c) m) k =
      ((cols.filter (fun c => norm c = k)).getLast?).or (getKey m k) := by
  induction cols generalizing m with
  | nil => simp
  | cons c t ih =>
    rw [List.foldl_cons, ih]
    by_cases h : norm c = k
    · have h1 : getKey (setKey m (norm c) c) k = some c := by
        rw [← h]
        exact getKey_setKey_self m (norm c) c
      rw [h1, List.filter_cons, if_pos (by simpa using h), getLast?_cons_or]
      rw [Option.or_assoc]
      rfl
    · have h1 : getKey (setKey m (norm c) c) k = getKey m k :=
        getKey_setKey_ne m (norm c) c (fun hk => h hk.symm)
      rw [h1, List.filter_cons, if_neg (by simpa using h)]

/-- The source index resolves each normalized key to the **last** column of
`atf_cols` normalizing to it (a Python dict comprehension lets later
duplicates overwrite the value). -/
theorem getKey_atfNormMap (cols : List String) (k : String) :
    getKey (atfNormMap cols) k = (cols.filter (fun c => norm c = k)).getLast? := by
  rw [atfNormMap, getKey_normFold, getKey_nil]
  cases (cols.filter (fun c => norm c = k)).getLast? <;> rfl

theorem atfNormMap_sound {cols : List String} {k v : String}
    (h : getKey (atfNormMap cols) k = some v) :
    v ∈ cols ∧ norm v = k ∧
      (cols.filter (fun c => norm c = norm v)).getLast? = some v := by
  rw [getKey_atfNormMap] at h
  have hv := mem_of_getLast?_eq_some h
  rw [List.mem_filter] at hv
  have hnv : norm v = k := by simpa using hv.2
  exact ⟨hv.1, hnv, by rw [hnv]; exact h⟩

/-! ## `norm` is total, idempotent and case-insensitive -/

theorem charToNat_ofNat {m : Nat} (h : m.isValidChar) :
    (Char.ofNat m).toNat = m := by
  simp [Char.ofNat, h, Char.ofNatAux, Char.toNat]
  rfl

theorem pyLowerChar_toNat_of_upper (c : Char)
    (h : 65 ≤ c.toNat ∧ c.toNat ≤ 90) :
    (pyLowerChar c).toNat = c.toNat + 32 := by
  have hv : (c.toNat + 32).isValidChar := by
    left
    omega
  rw [pyLowerChar]
  simp only [Char.toLower, if_pos h]
  exact charToNat_ofNat hv

theorem pyLowerChar_eq_self (c : Char) (h : ¬ (65 ≤ c.toNat ∧ c.toNat ≤ 90)) :
    pyLowerChar c = c := by
  rw [pyLowerChar]
  simp only [Char.toLower, if_neg h]

theorem pyLowerChar_idem (c : Char) :
    pyLowerChar (pyLowerChar c) = pyLowerChar c := by
  by_cases h : 65 ≤ c.toNat ∧ c.toNat ≤ 90
  · have h1 := pyLowerChar_toNat_of_upper c h
    apply pyLowerChar_eq_self
    omega
  · rw [pyLowerChar_eq_self c h]
    exact pyLowerChar_eq_self c h

theorem norm_data (s : String) :
    (norm s).data = (s.data.map pyLowerChar).filter Char.isAlphanum := rfl

theorem map_pyLowerChar_of_lowered (l : List Char) :
    (l.map pyLowerChar).map pyLowerChar = l.map pyLowerChar := by
  rw [List.map_map]
  apply List.map_congr_left
  intro c _
  exact pyLowerChar_idem c

/-- `norm` is idempotent. -/
theorem norm_idem (s : String) : norm (norm s) = norm s := by
  apply congrArg String.mk
  show ((((s.data.map pyLowerChar).filter Char.isAlphanum).map pyLowerChar).filter
      Char.isAlphanum) = (s.data.map pyLowerChar).filter Char.isAlphanum
  have h1 : ((s.data.map pyLowerChar).filter Char.isAlphanum).map pyLowerChar =
      (s.data.map pyLowerChar).filter Char.isAlphanum := by
    refine (@List.map_congr_left _ _ _ pyLowerChar id ?_).trans (List.map_id _)
    intro c hc
    have : c ∈ s.data.map pyLowerChar := (List.mem_filter.1 hc).1
    rcases List.mem_map.1 this with ⟨c0, _, rfl⟩
    exact pyLowerChar_idem c0
  rw [h1, List.filter_filter]
  apply List.filter_congr
  intro c _
  simp

/-! ## `maxLex` and `getCloseMatches` -/

theorem char_eq_of_toNat_eq {a b : Char} (h : a.toNat = b.toNat) : a = b := by
  apply Char.ext
  apply UInt32.eq_of_toBitVec_eq
  apply BitVec.eq_of_toNat_eq
  exact h

theorem pyStrLtList_trans : ∀ {x y z : List Char},
    pyStrLtList x y = true → pyStrLtList y z = true → pyStrLtList x z = true := by
  intro x
  induction x with
  | nil =>
    intro y z hxy hyz
    cases y with
    | nil => simp [pyStrLtList] at hxy
    | cons b bs =>
      cases z with
      | nil => simp [pyStrLtList] at hyz
      | cons c cs => rfl
  | cons a as ih =>
    intro y z hxy hyz
    cases y with
    | nil => simp [pyStrLtList] at hxy
    | cons b bs =>
      cases z with
      | nil => simp [pyStrLtList] at hyz
      | cons c cs =>
        rw [pyStrLtList] at hxy hyz ⊢
        by_cases hab : a.toNat < b.toNat
        · by_cases hbc : b.toNat < c.toNat
          · rw [if_pos (by omega : a.toNat < c.toNat)]
          · rw [if_neg hbc] at hyz
            by_cases hcb : c.toNat < b.toNat
            · rw [if_pos hcb] at hyz
              simp at hyz
            · rw [if_neg hcb] at hyz
              rw [if_pos (by omega : a.toNat < c.toNat)]
        · rw [if_neg hab] at hxy
          by_cases hba : b.toNat < a.toNat
          · rw [if_pos hba] at hxy
            simp at hxy
          · rw [if_neg hba] at hxy
            by_cases hbc : b.toNat < c.toNat
            · rw [if_pos (by omega : a.toNat < c.toNat)]
            · rw [if_neg hbc] at hyz
              by_cases hcb : c.toNat < b.toNat
              · rw [if_pos hcb] at hyz
                simp at hyz
              · rw [if_neg hcb] at hyz
                rw [if_neg (by omega : ¬ a.toNat < c.toNat),
                  if_neg (by omega : ¬ c.toNat < a.toNat)]
                exact ih hxy hyz

theorem pyStrLtList_connex : ∀ (x y : List Char),
    pyStrLtList x y = true ∨ x = y ∨ pyStrLtList y x = true := by
  intro x
  induction x with
  | nil =>
    intro y
    cases y with
    | nil => exact Or.inr (Or.inl rfl)
    | cons b bs => exact Or.inl rfl
  | cons a as ih =>
    intro y
    cases y with
    | nil => exact Or.inr (Or.inr rfl)
    | cons b bs =>
      by_cases hab : a.toNat < b.toNat
      · left
        rw [pyStrLtList, if_pos hab]
      · by_cases hba : b.toNat < a.toNat
        · right; right
          rw [pyStrLtList, if_pos hba]
        · have hchar : a = b := char_eq_of_toNat_eq (by omega)
          rcases ih bs with h | h | h
          · left
            rw [pyStrLtList, if_neg hab, if_neg hba]
            exact h
          · right; left
            rw [hchar, h]
          · right; right
            rw [pyStrLtList, if_neg (hchar ▸ hba), if_neg (hchar ▸ hab)]
            exact h

theorem pyStrLt_trans {x y z : String} (h1 : pyStrLt x y = true)
    (h2 : pyStrLt y z = true) : pyStrLt x z = true :=
  pyStrLtList_trans h1 h2

theorem pyStrLt_connex (x y : String) :
    pyStrLt x y = true ∨ x = y ∨ pyStrLt y x = true := by
  rcases pyStrLtList_connex x.data y.data with h | h | h
  · exact Or.inl h
  · exact Or.inr (Or.inl (congrArg String.mk h))
  · exact Or.inr (Or.inr h)

theorem lexLe_refl (p : ℚ × String) : lexLe p p := Or.inr rfl

theorem lexLt_trans {p q' r' : ℚ × String} (h1 : lexLt p q') (h2 : lexLt q' r') :
    lexLt p r' := by
  rcases h1 with h1 | ⟨h1, h1'⟩ <;> rcases h2 with h2 | ⟨h2, h2'⟩
  · exact Or.inl (lt_trans h1 h2)
  · exact Or.inl (h2 ▸ h1)
  · exact Or.inl (h1 ▸ h2)
  · exact Or.inr ⟨h1.trans h2, pyStrLt_trans h1' h2'⟩

theorem lexLe_trans {p q' r' : ℚ × String} (h1 : lexLe p q') (h2 : lexLe q' r') :
    lexLe p r' := by
  rcases h1 with h1 | rfl
  · rcases h2 with h2 | rfl
    · exact Or.inl (lexLt_trans h1 h2)
    · exact Or.inl h1
  · exact h2

theorem lexLe_of_not_lt {p q' : ℚ × String} (h : ¬ lexLt p q') : lexLe q' p := by
  rcases lt_trichotomy p.1 q'.1 with h1 | h1 | h1
  · exact absurd (Or.inl h1) h
  · rcases pyStrLt_connex p.2 q'.2 with h2 | h2 | h2
    · exact absurd (Or.inr ⟨h1, h2⟩) h
    · right
      obtain ⟨a, b⟩ := p
      obtain ⟨c, d⟩ := q'
      simp only at h1 h2
      rw [h1, h2]
    · exact Or.inl (Or.inr ⟨h1.symm, h2⟩)
  · exact Or.inl (Or.inl h1)

theorem foldl_lexMax2_spec (t : List (ℚ × String)) : ∀ p : ℚ × String,
    (t.foldl lexMax2 p = p ∨ t.foldl lexMax2 p ∈ t) ∧
      lexLe p (t.foldl lexMax2 p) ∧ ∀ x ∈ t, lexLe x (t.foldl lexMax2 p) := by
  induction t with
  | nil =>
    intro p
    exact ⟨Or.inl rfl, lexLe_refl p, by simp⟩
  | cons q t ih =>
    intro p
    rw [List.foldl_cons]
    by_cases h : lexLt p q
    · have hstep : lexMax2 p q = q := if_pos h
      rw [hstep]
      rcases ih q with ⟨hmem, hle, hall⟩
      refine ⟨?_, lexLe_trans (Or.inl h) hle, ?_⟩
      · rcases hmem with he | hm
        · exact Or.inr (by rw [he]; exact List.mem_cons_self _ _)
        · exact Or.inr (List.mem_cons_of_mem _ hm)
      · intro x hx
        rcases List.mem_cons.1 hx with rfl | hx
        · exact hle
        · exact hall x hx
    · have hstep : lexMax2 p q = p := if_neg h
      rw [hstep]
      rcases ih p with ⟨hmem, hle, hall⟩
      refine ⟨?_, hle, ?_⟩
      · rcases hmem with he | hm
        · exact Or.inl he
        · exact Or.inr (List.mem_cons_of_mem _ hm)
      · intro x hx
        rcases List.mem_cons.1 hx with rfl | hx
        · exact lexLe_trans (lexLe_of_not_lt h) hle
        · exact hall x hx

theorem maxLex_nil : maxLex [] = none := rfl

theorem maxLex_cons_spec (q : ℚ × String) (t : List (ℚ × String)) :
    ∃ p', maxLex (q :: t) = some p' ∧ p' ∈ q :: t ∧ ∀ x ∈ q :: t, lexLe x p' := by
  rcases foldl_lexMax2_spec t q with ⟨hmem, hle, hall⟩
  refine ⟨t.foldl lexMax2 q, rfl, ?_, ?_⟩
  · rcases hmem with he | hm
    · rw [he]
      exact List.mem_cons_self _ _
    · exact List.mem_cons_of_mem _ hm
  · intro x hx
    rcases List.mem_cons.1 hx with rfl | hx
    · exact hle
    · exact hall x hx

theorem findSome?_eq_some_ex {α β : Type} {f : α → Option β} :
    ∀ {l : List α} {b : β}, l.findSome? f = some b → ∃ a ∈ l, f a = some b := by
  intro l
  induction l with
  | nil => intro b h; simp [List.findSome?] at h
  | cons a t ih =>
    intro b h
    rw [List.findSome?_cons] at h
    cases hfa : f a with
    | some v =>
      rw [hfa] at h
      injection h with h
      exact ⟨a, List.mem_cons_self _ _, h ▸ hfa⟩
    | none =>
      rw [hfa] at h
      rcases ih h with ⟨x, hx, hfx⟩
      exact ⟨x, List.mem_cons_of_mem _ hx, hfx⟩

theorem getCloseMatches_ok_nil {w : String} {poss : List String} {q : ℚ}
    (h : getCloseMatches w poss q = Except.ok []) :
    ∀ x ∈ poss, fuzzyAccepts q x w = false := by
  rw [getCloseMatches] at h
  by_cases hq : 0 ≤ q ∧ q ≤ 1
  · rw [if_pos hq] at h
    injection h with h
    cases hfil : poss.filter (fun x => fuzzyAccepts q x w) with
    | nil =>
      intro x hx
      have := (List.filter_eq_nil_iff.1 hfil) x hx
      simpa using this
    | cons c0 t =>
      rw [hfil] at h
      rcases maxLex_cons_spec (fuzzyScore c0 w, c0)
          (t.map (fun x => (fuzzyScore x w, x))) with ⟨p', hm, _, _⟩
      rw [List.map_cons] at h
      rw [hm] at h
      simp at h
  · rw [if_neg hq] at h
    exact absurd h (by simp)

theorem getCloseMatches_ok_cons {w : String} {poss : List String} {q : ℚ}
    {c0 : String} {rest : List String}
    (h : getCloseMatches w poss q = Except.ok (c0 :: rest)) :
    c0 ∈ poss ∧ fuzzyAccepts q c0 w = true ∧
      ∀ x ∈ poss, fuzzyAccepts q x w = true →
        lexLe (fuzzyScore x w, x) (fuzzyScore c0 w, c0) := by
  rw [getCloseMatches] at h
  by_cases hq : 0 ≤ q ∧ q ≤ 1
  · rw [if_pos hq] at h
    injection h with h
    cases hfil : poss.filter (fun x => fuzzyAccepts q x w) with
    | nil =>
      rw [hfil] at h
      simp [maxLex] at h
    | cons a t =>
      rw [hfil, List.map_cons] at h
      rcases maxLex_cons_spec (fuzzyScore a w, a)
          (t.map (fun x => (fuzzyScore x w, x))) with ⟨p', hm, hmem, hall⟩
      rw [hm] at h
      injection h with h1 h2
      subst h1
      have hc0mem : p'.2 ∈ poss.filter (fun x => fuzzyAccepts q x w) := by
        have : p' ∈ (a :: t).map (fun x => (fuzzyScore x w, x)) := by
          rw [List.map_cons]
          exact hmem
        rcases List.mem_map.1 this with ⟨x, hx, rfl⟩
        exact hfil ▸ hx
      have hc0 : p'.2 ∈ poss ∧ fuzzyAccepts q p'.2 w = true := by
        have := List.mem_filter.1 hc0mem
        exact ⟨this.1, this.2⟩
      refine ⟨hc0.1, hc0.2, ?_⟩
      intro x hx hacc
      have hxf : x ∈ poss.filter (fun y => fuzzyAccepts q y w) :=
        List.mem_filter.2 ⟨hx, hacc⟩
      have hxm : (fuzzyScore x w, x) ∈ (a :: t).map (fun y => (fuzzyScore y w, y)) := by
        rw [← hfil]
        exact List.mem_map_of_mem _ hxf
      have hmax := hall _ hxm
      -- p' = (fuzzyScore p'.2 w, p'.2)
      have hp' : p' = (fuzzyScore p'.2 w, p'.2) := by
        have : p' ∈ (a :: t).map (fun y => (fuzzyScore y w, y)) := by
          rw [List.map_cons]
          exact hmem
        rcases List.mem_map.1 this with ⟨y, _, hy⟩
        rw [← hy]
      rw [hp'] at hmax
      exact hmax
  · rw [if_neg hq] at h
    exact absurd h (by simp)

/-- `norm` is case-insensitive: normalizing `s.lower()` gives the same key. -/
theorem norm_pyLower (s : String) : norm (pyLower s) = norm s := by
  apply congrArg String.mk
  show ((s.data.map pyLowerChar).map pyLowerChar).filter Char.isAlphanum =
    (s.data.map pyLowerChar).filter Char.isAlphanum
  rw [map_pyLowerChar_of_lowered]

/-! ## Facts about a single pass-2 resolution -/

theorem keysOf_eq_map {κ α : Type} (m : List (κ × α)) :
    keysOf m = m.map Prod.fst := rfl

theorem aliasHit_some {idx : List (String × String)} {key v : String}
    (h : aliasHit idx key = some v) : ∃ k, getKey idx k = some v := by
  rcases findSome?_eq_some_ex h with ⟨g, _, hg⟩
  by_cases hc : key = g.1 ∨ key ∈ (g.2 ++ [g.1]).map norm
  · rw [if_pos hc] at hg
    rcases findSome?_eq_some_ex hg with ⟨a, _, ha⟩
    exact ⟨norm a, ha⟩
  · rw [if_neg hc] at hg
    exact absurd hg (by simp)

theorem resolveOne_cases {idx : List (String × String)} {q : ℚ} {c : String}
    {r : Option String × String × String}
    (h : resolveOne idx q c = Except.ok r) :
    (∃ v, getKey idx (norm c) = some v ∧ r = (some v, v, "DIRECT")) ∨
    (∃ v, aliasHit idx (norm c) = some v ∧ r = (some v, v, "ALIAS")) ∨
    (getCloseMatches (norm c) (keysOf idx) q = Except.ok [] ∧ r = (none, "", "MISSING")) ∨
    (∃ c0 rest, getCloseMatches (norm c) (keysOf idx) q = Except.ok (c0 :: rest) ∧
      r = (some ((getKey idx c0).getD ""), (getKey idx c0).getD "", "FUZZY")) := by
  unfold resolveOne at h
  dsimp only at h
  split at h
  · rename_i v hd
    left
    exact ⟨v, hd, (Except.ok.inj h).symm⟩
  · rename_i hd
    split at h
    · rename_i v ha
      right; left
      exact ⟨v, ha, (Except.ok.inj h).symm⟩
    · rename_i ha
      split at h
      · exact absurd h (by simp)
      · rename_i hg
        right; right; left
        rw [keysOf_eq_map]
        exact ⟨hg, (Except.ok.inj h).symm⟩
      · rename_i c0 rest hg
        right; right; right
        rw [keysOf_eq_map]
        exact ⟨c0, rest, hg, (Except.ok.inj h).symm⟩

theorem resolveOne_facts {atf_cols : List String} {idx : List (String × String)}
    {q : ℚ} {c : String} {r : Option String × String × String}
    (h : resolveOne idx q c = Except.ok r) :
    KindFacts atf_cols idx q (c, r.2.1, r.2.2) ∧ r.1 = rowVal (c, r.2.1, r.2.2) := by
  rcases resolveOne_cases h with ⟨v, hd, rfl⟩ | ⟨v, ha, rfl⟩ | ⟨hg, rfl⟩ |
    ⟨c0, rest, hg, rfl⟩
  · exact ⟨Or.inr (Or.inr (Or.inr (Or.inl ⟨rfl, hd⟩))), rfl⟩
  · exact ⟨Or.inr (Or.inr (Or.inr (Or.inr (Or.inl ⟨rfl, aliasHit_some ha⟩)))), rfl⟩
  · refine ⟨Or.inr (Or.inr (Or.inr (Or.inr (Or.inr (Or.inr ⟨rfl, rfl, ?_⟩))))), rfl⟩
    intro k hk
    exact getCloseMatches_ok_nil hg k hk
  · have hspec := getCloseMatches_ok_cons hg
    rcases getKey_isSome_of_mem_keys hspec.1 with ⟨v0, hv0⟩
    refine ⟨Or.inr (Or.inr (Or.inr (Or.inr (Or.inr (Or.inl ⟨rfl, ?_⟩))))),
      by rw [hv0]; rfl⟩
    refine ⟨c0, hspec.1, hspec.2.1, ?_, ?_⟩
    · rw [hv0]
      rfl
    · intro k' hk' hacc
      exact hspec.2.2 k' hk' hacc

theorem resolveOne_ok_of_cutoff {idx : List (String × String)} {q : ℚ}
    (h0 : 0 ≤ q) (h1 : q ≤ 1) (c : String) :
    ∃ r, resolveOne idx q c = Except.ok r := by
  cases hres : resolveOne idx q c with
  | ok r => exact ⟨r, rfl⟩
  | error e =>
    exfalso
    unfold resolveOne at hres
    dsimp only at hres
    split at hres
    · exact absurd hres (by simp)
    · split at hres
      · exact absurd hres (by simp)
      · split at hres
        · rename_i e' hg
          rw [getCloseMatches, if_pos ⟨h0, h1⟩] at hg
          exact absurd hg (by simp)
        · exact absurd hres (by simp)
        · exact absurd hres (by simp)

/-! ## Pass 1: structure of one override step -/

theorem overrideStep_cases (atf_cols : List String) (idx : List (String × String))
    (st : MapState) (p : String × String) :
    (p.2 ∈ atf_cols ∧ overrideStep atf_cols idx st p =
      (setKey st.1 p.1 (some p.2), st.2 ++ [(p.1, p.2, "OVERRIDE")])) ∨
    (p.2 ∉ atf_cols ∧ ∃ v, getKey idx (norm p.2) = some v ∧
      overrideStep atf_cols idx st p =
        (setKey st.1 p.1 (some v), st.2 ++ [(p.1, v, "OVERRIDE(norm)")])) ∨
    (p.2 ∉ atf_cols ∧ getKey idx (norm p.2) = none ∧
      overrideStep atf_cols idx st p =
        (setKey st.1 p.1 none, st.2 ++ [(p.1, "", "OVERRIDE-NOTFOUND")])) := by
  by_cases hmem : p.2 ∈ atf_cols
  · left
    exact ⟨hmem, by rw [overrideStep, if_pos hmem]⟩
  · cases hv : getKey idx (norm p.2) with
    | some v =>
      right; left
      exact ⟨hmem, v, rfl, by rw [overrideStep, if_neg hmem, hv]⟩
    | none =>
      right; right
      exact ⟨hmem, rfl, by rw [overrideStep, if_neg hmem, hv]⟩

theorem overrideStep_shape (atf_cols : List String) (idx : List (String × String))
    (q : ℚ) (st : MapState) (p : String × String) :
    ∃ val row, overrideStep atf_cols idx st p = (setKey st.1 p.1 val, st.2 ++ [row]) ∧
      row.1 = p.1 ∧ KindFacts atf_cols idx q row ∧ val = rowVal row ∧
      (row.2.2 = "OVERRIDE" ∨ row.2.2 = "OVERRIDE(norm)" ∨ row.2.2 = "OVERRIDE-NOTFOUND") := by
  rcases overrideStep_cases atf_cols idx st p with ⟨hmem, he⟩ | ⟨hmem, v, hv, he⟩ |
    ⟨hmem, hv, he⟩
  · exact ⟨some p.2, (p.1, p.2, "OVERRIDE"), he, rfl,
      Or.inl ⟨rfl, hmem⟩, rfl, Or.inl rfl⟩
  · exact ⟨some v, (p.1, v, "OVERRIDE(norm)"), he, rfl,
      Or.inr (Or.inl ⟨rfl, norm p.2, hv⟩), rfl, Or.inr (Or.inl rfl)⟩
  · exact ⟨none, (p.1, "", "OVERRIDE-NOTFOUND"), he, rfl,
      Or.inr (Or.inr (Or.inl ⟨rfl, rfl⟩)), rfl, Or.inr (Or.inr rfl)⟩

/-! ## Preservation of the state invariant -/

theorem stInv_append_row {atf_cols : List String} {idx : List (String × String)}
    {q : ℚ} {st : MapState} (h : StInv atf_cols idx q st) {c : String}
    {val : Option String} {row : Row}
    (hrow1 : row.1 = c) (hfresh : ¬ containsKey st.1 c = true)
    (hkf : KindFacts atf_cols idx q row) (hval : val = rowVal row) :
    StInv atf_cols idx q (setKey st.1 c val, st.2 ++ [row]) := by
  obtain ⟨hnd, hkeys, hrows⟩ := h
  have hcnotin : c ∉ st.2.map (fun r => r.1) := fun hc => hfresh ((hkeys c).2 hc)
  refine ⟨?_, ?_, ?_⟩
  · rw [List.map_append]
    refine List.Nodup.append hnd (by simp) ?_
    intro x hx hx2
    simp only [List.map_cons, List.map_nil, List.mem_singleton] at hx2
    rw [hx2, hrow1] at hx
    exact hcnotin hx
  · intro c'
    rw [containsKey_iff, mem_keysOf_setKey, List.map_append]
    constructor
    · rintro (hin | rfl)
      · exact List.mem_append_left _ ((hkeys c').1 (containsKey_iff.2 hin))
      · exact List.mem_append_right _ (by simp [hrow1])
    · intro hin
      rcases List.mem_append.1 hin with hin | hin
      · exact Or.inl (containsKey_iff.1 ((hkeys c').2 hin))
      · simp only [List.map_cons, List.map_nil, List.mem_singleton] at hin
        exact Or.inr (hin.trans hrow1)
  · intro r hr
    rcases List.mem_append.1 hr with hr | hr
    · have hne : r.1 ≠ c := by
        intro he
        exact hcnotin (he ▸ List.mem_map_of_mem (fun r => r.1) hr)
      exact ⟨(hrows r hr).1, by
        rw [getKey_setKey_ne st.1 c val hne]
        exact (hrows r hr).2⟩
    · simp only [List.mem_singleton] at hr
      subst hr
      refine ⟨hkf, ?_⟩
      rw [hrow1, getKey_setKey_self, hval]

theorem stInv_empty (atf_cols : List String) (idx : List (String × String))
    (q : ℚ) : StInv atf_cols idx q ([], []) := by
  refine ⟨List.nodup_nil, ?_, ?_⟩
  · intro c
    simp [containsKey]
  · intro r hr
    simp at hr

theorem pass1_inv {atf_cols : List String} {idx : List (String × String)} {q : ℚ} :
    ∀ (ov : List (String × String)) (st : MapState),
      (ov.map Prod.fst).Nodup →
      (∀ k ∈ ov.map Prod.fst, ¬ containsKey st.1 k = true) →
      StInv atf_cols idx q st → StInv atf_cols idx q (pass1 atf_cols idx ov st) := by
  intro ov
  induction ov with
  | nil => intro st _ _ h; exact h
  | cons p t ih =>
    intro st hnd hdisj h
    rw [List.map_cons, List.nodup_cons] at hnd
    rcases overrideStep_shape atf_cols idx q st p with ⟨val, row, he, hrow1, hkf, hval, _⟩
    have hfresh : ¬ containsKey st.1 p.1 = true :=
      hdisj p.1 (by simp)
    have hst' : StInv atf_cols idx q (overrideStep atf_cols idx st p) := by
      rw [he]
      exact stInv_append_row ⟨h.1, h.2.1, h.2.2⟩ hrow1 hfresh hkf hval
    rw [pass1]
    apply ih _ hnd.2 ?_ hst'
    intro k hk
    rw [he]
    intro hc
    rw [containsKey_iff, mem_keysOf_setKey] at hc
    rcases hc with hc | rfl
    · exact hdisj k (List.mem_cons_of_mem _ hk) (containsKey_iff.2 hc)
    · exact hnd.1 hk

theorem pass2_inv {atf_cols : List String} {idx : List (String × String)} {q : ℚ} :
    ∀ (cols : List String) (st res : MapState),
      pass2 idx q cols st = Except.ok res →
      StInv atf_cols idx q st → StInv atf_cols idx q res := by
  intro cols
  induction cols with
  | nil =>
    intro st res h hinv
    rw [pass2] at h
    injection h with h
    exact h ▸ hinv
  | cons c rest ih =>
    intro st res h hinv
    rw [pass2] at h
    split at h
    · exact ih st res h hinv
    · rename_i hfresh
      split at h
      · exact absurd h (by simp)
      · rename_i r hr
        apply ih _ res h
        have hfacts := @resolveOne_facts atf_cols _ _ _ _ hr
        exact stInv_append_row hinv rfl hfresh hfacts.1 hfacts.2

/-- The master invariant of `build_mapping`: with distinct override keys
(a Python dict), the returned state satisfies `StInv`. -/
theorem build_mapping_inv {atf_cols fb_cols : List String}
    {ov : List (String × String)} {q : ℚ} {res : MapState}
    (hnd : (ov.map Prod.fst).Nodup)
    (h : build_mapping atf_cols fb_cols ov q = Except.ok res) :
    StInv atf_cols (atfNormMap atf_cols) q res := by
  unfold build_mapping at h
  apply pass2_inv fb_cols _ res h
  apply pass1_inv ov ([], []) hnd ?_ (stInv_empty _ _ _)
  intro k _
  simp [containsKey]

/-! ## The order and identifiers of the trace -/

theorem overrideStep_ids (atf_cols : List String) (idx : List (String × String))
    (st : MapState) (p : String × String) :
    (overrideStep atf_cols idx st p).2.map (fun r => r.1) =
      st.2.map (fun r => r.1) ++ [p.1] := by
  rcases overrideStep_shape atf_cols idx 0 st p with ⟨val, row, he, hrow1, _, _, _⟩
  rw [he]
  simp [hrow1]

theorem overrideStep_keys (atf_cols : List String) (idx : List (String × String))
    (st : MapState) (p : String × String) (c : String) :
    (containsKey (overrideStep atf_cols idx st p).1 c = true ↔
      containsKey st.1 c = true ∨ c = p.1) := by
  rcases overrideStep_shape atf_cols idx 0 st p with ⟨val, row, he, _, _, _, _⟩
  rw [he]
  simp only [containsKey_iff, mem_keysOf_setKey]

theorem pass1_ids (atf_cols : List String) (idx : List (String × String)) :
    ∀ (ov : List (String × String)) (st : MapState),
      (pass1 atf_cols idx ov st).2.map (fun r => r.1) =
        st.2.map (fun r => r.1) ++ ov.map Prod.fst := by
  intro ov
  induction ov with
  | nil => intro st; simp [pass1]
  | cons p t ih =>
    intro st
    rw [pass1, ih, overrideStep_ids]
    simp

theorem pass1_keys (atf_cols : List String) (idx : List (String × String)) :
    ∀ (ov : List (String × String)) (st : MapState) (c : String),
      (containsKey (pass1 atf_cols idx ov st).1 c = true ↔
        containsKey st.1 c = true ∨ c ∈ ov.map Prod.fst) := by
  intro ov
  induction ov with
  | nil => intro st c; simp [pass1]
  | cons p t ih =>
    intro st c
    rw [pass1, ih, overrideStep_keys]
    simp only [List.map_cons, List.mem_cons]
    constructor
    · rintro ((hc | rfl) | hc)
      · exact Or.inl hc
      · exact Or.inr (Or.inl rfl)
      · exact Or.inr (Or.inr hc)
    · rintro (hc | rfl | hc)
      · exact Or.inl (Or.inl hc)
      · exact Or.inl (Or.inr rfl)
      · exact Or.inr hc

theorem pass1_rows_kinds (atf_cols : List String) (idx : List (String × String)) :
    ∀ (ov : List (String × String)) (st : MapState),
      ∀ r ∈ (pass1 atf_cols idx ov st).2, r ∈ st.2 ∨
        (r.2.2 = "OVERRIDE" ∨ r.2.2 = "OVERRIDE(norm)" ∨ r.2.2 = "OVERRIDE-NOTFOUND") := by
  intro ov
  induction ov with
  | nil => intro st r hr; exact Or.inl hr
  | cons p t ih =>
    intro st r hr
    rw [pass1] at hr
    rcases ih _ r hr with hr1 | hk
    · rcases overrideStep_shape atf_cols idx 0 st p with ⟨val, row, he, _, _, _, hkinds⟩
      rw [he] at hr1
      rcases List.mem_append.1 hr1 with hr2 | hr2
      · exact Or.inl hr2
      · simp only [List.mem_singleton] at hr2
        exact Or.inr (hr2 ▸ hkinds)
    · exact Or.inr hk

theorem mem_pass2Cols : ∀ (cols avoid : List String) (c : String),
    c ∈ cols → c ∈ avoid ∨ c ∈ pass2Cols avoid cols := by
  intro cols
  induction cols with
  | nil => intro avoid c hc; simp at hc
  | cons d rest ih =>
    intro avoid c hc
    rw [pass2Cols]
    by_cases hd : d ∈ avoid
    · rw [if_pos hd]
      rcases List.mem_cons.1 hc with rfl | hc
      · exact Or.inl hd
      · exact ih avoid c hc
    · rw [if_neg hd]
      rcases List.mem_cons.1 hc with rfl | hc
      · exact Or.inr (List.mem_cons_self _ _)
      · rcases ih (avoid ++ [d]) c hc with hc1 | hc1
        · rcases List.mem_append.1 hc1 with hc2 | hc2
          · exact Or.inl hc2
          · simp only [List.mem_singleton] at hc2
            exact Or.inr (hc2 ▸ List.mem_cons_self _ _)
        · exact Or.inr (List.mem_cons_of_mem _ hc1)

theorem pass2Cols_congr : ∀ (cols avoid₁ avoid₂ : List String),
    (∀ x, x ∈ avoid₁ ↔ x ∈ avoid₂) → pass2Cols avoid₁ cols = pass2Cols avoid₂ cols := by
  intro cols
  induction cols with
  | nil => intro _ _ _; rfl
  | cons c rest ih =>
    intro a₁ a₂ hiff
    rw [pass2Cols, pass2Cols]
    by_cases hc : c ∈ a₁
    · rw [if_pos hc, if_pos ((hiff c).1 hc)]
      exact ih a₁ a₂ hiff
    · rw [if_neg hc, if_neg (fun h => hc ((hiff c).2 h))]
      refine congrArg (c :: ·) ?_
      apply ih
      intro x
      simp only [List.mem_append, List.mem_singleton]
      exact or_congr (hiff x) Iff.rfl

theorem pass2_ids {idx : List (String × String)} {q : ℚ} :
    ∀ (cols : List String) (st res : MapState),
      pass2 idx q cols st = Except.ok res →
      res.2.map (fun r => r.1) =
        st.2.map (fun r => r.1) ++ pass2Cols (keysOf st.1) cols := by
  intro cols
  induction cols with
  | nil =>
    intro st res h
    rw [pass2] at h
    injection h with h
    rw [← h, pass2Cols]
    simp
  | cons c rest ih =>
    intro st res h
    rw [pass2] at h
    rw [pass2Cols]
    split at h
    · rename_i hck
      rw [if_pos (containsKey_iff.1 hck)]
      exact ih st res h
    · rename_i hck
      have hcnot : c ∉ keysOf st.1 := fun hm => hck (containsKey_iff.2 hm)
      rw [if_neg hcnot]
      split at h
      · exact absurd h (by simp)
      · rename_i r hr
        have hids := ih _ res h
        have hkeys' : keysOf (setKey st.1 c r.1) = keysOf st.1 ++ [c] :=
          keysOf_setKey_of_not_contains r.1 hck
        rw [hids, hkeys']
        simp only [List.map_append, List.map_cons, List.map_nil, List.append_assoc,
          List.singleton_append]

theorem pass2_rows_partition {idx : List (String × String)} {q : ℚ} :
    ∀ (cols : List String) (st res : MapState),
      pass2 idx q cols st = Except.ok res →
      ∀ r ∈ res.2, r ∈ st.2 ∨
        (¬ containsKey st.1 r.1 = true ∧
          (r.2.2 = "DIRECT" ∨ r.2.2 = "ALIAS" ∨ r.2.2 = "FUZZY" ∨ r.2.2 = "MISSING")) := by
  intro cols
  induction cols with
  | nil =>
    intro st res h r hr
    rw [pass2] at h
    injection h with h
    exact Or.inl (h ▸ hr)
  | cons c rest ih =>
    intro st res h r hr
    rw [pass2] at h
    split at h
    · exact ih st res h r hr
    · rename_i hck
      split at h
      · exact absurd h (by simp)
      · rename_i r0 hr0
        rcases ih _ res h r hr with hmem | ⟨hfr, hkinds⟩
        · rcases List.mem_append.1 hmem with hmem | hmem
          · exact Or.inl hmem
          · simp only [List.mem_singleton] at hmem
            subst hmem
            refine Or.inr ⟨hck, ?_⟩
            rcases resolveOne_cases hr0 with ⟨v, _, rfl⟩ | ⟨v, _, rfl⟩ | ⟨_, rfl⟩ |
              ⟨c0, t0, _, rfl⟩
            · exact Or.inl rfl
            · exact Or.inr (Or.inl rfl)
            · exact Or.inr (Or.inr (Or.inr rfl))
            · exact Or.inr (Or.inr (Or.inl rfl))
        · refine Or.inr ⟨?_, hkinds⟩
          intro hc
          apply hfr
          rw [containsKey_iff, mem_keysOf_setKey]
          exact Or.inl (containsKey_iff.1 hc)

theorem pass2_ok_of_cutoff {idx : List (String × String)} {q : ℚ}
    (h0 : 0 ≤ q) (h1 : q ≤ 1) :
    ∀ (cols : List String) (st : MapState), ∃ res, pass2 idx q cols st = Except.ok res := by
  intro cols
  induction cols with
  | nil => intro st; exact ⟨st, rfl⟩
  | cons c rest ih =>
    intro st
    rw [pass2]
    by_cases hck : containsKey st.1 c = true
    · rw [if_pos hck]
      exact ih st
    · rw [if_neg hck]
      rcases @resolveOne_ok_of_cutoff idx q h0 h1 c with ⟨r, hr⟩
      rw [hr]
      exact ih _

/-! ## Build-level consequences -/

theorem build_mapping_ids {atf_cols fb_cols : List String}
    {ov : List (String × String)} {q : ℚ} {res : MapState}
    (h : build_mapping atf_cols fb_cols ov q = Except.ok res) :
    res.2.map (fun r => r.1) =
      ov.map Prod.fst ++ pass2Cols (ov.map Prod.fst) fb_cols := by
  unfold build_mapping at h
  have h2 := pass2_ids fb_cols _ res h
  rw [pass1_ids] at h2
  simp only [List.map_nil, List.nil_append] at h2
  rw [h2]
  refine congrArg (ov.map Prod.fst ++ ·) ?_
  apply pass2Cols_congr
  intro x
  rw [← containsKey_iff, pass1_keys]
  simp [containsKey]

theorem build_mapping_covers {atf_cols fb_cols : List String}
    {ov : List (String × String)} {q : ℚ} {res : MapState}
    (h : build_mapping atf_cols fb_cols ov q = Except.ok res) :
    ∀ c ∈ fb_cols, ∃ row ∈ res.2, row.1 = c := by
  intro c hc
  have hid : c ∈ res.2.map (fun r => r.1) := by
    rw [build_mapping_ids h]
    rcases mem_pass2Cols fb_cols (ov.map Prod.fst) c hc with hm | hm
    · exact List.mem_append_left _ hm
    · exact List.mem_append_right _ hm
  rcases List.mem_map.1 hid with ⟨row, hrow, hrow1⟩
  exact ⟨row, hrow, hrow1⟩

theorem pass1_rows_facts {atf_cols : List String} {idx : List (String × String)}
    {q : ℚ} : ∀ (ov : List (String × String)) (st : MapState),
    (∀ r ∈ st.2, KindFacts atf_cols idx q r) →
    ∀ r ∈ (pass1 atf_cols idx ov st).2, KindFacts atf_cols idx q r := by
  intro ov
  induction ov with
  | nil => intro st hst r hr; exact hst r hr
  | cons p t ih =>
    intro st hst r hr
    rw [pass1] at hr
    refine ih _ ?_ r hr
    rcases overrideStep_shape atf_cols idx q st p with ⟨val, row, he, _, hkf, _, _⟩
    rw [he]
    intro r' hr'
    rcases List.mem_append.1 hr' with hm | hm
    · exact hst r' hm
    · simp only [List.mem_singleton] at hm
      exact hm ▸ hkf

theorem pass2_rows_facts {atf_cols : List String} {idx : List (String × String)}
    {q : ℚ} : ∀ (cols : List String) (st res : MapState),
    pass2 idx q cols st = Except.ok res →
    (∀ r ∈ st.2, KindFacts atf_cols idx q r) →
    ∀ r ∈ res.2, KindFacts atf_cols idx q r := by
  intro cols
  induction cols with
  | nil =>
    intro st res h hst r hr
    rw [pass2] at h
    injection h with h
    exact hst r (h ▸ hr)
  | cons c rest ih =>
    intro st res h hst r hr
    rw [pass2] at h
    split at h
    · exact ih st res h hst r hr
    · split at h
      · exact absurd h (by simp)
      · rename_i r0 hr0
        refine ih _ res h ?_ r hr
        intro r' hr'
        rcases List.mem_append.1 hr' with hm | hm
        · exact hst r' hm
        · simp only [List.mem_singleton] at hm
          exact hm ▸ (resolveOne_facts hr0).1

theorem build_mapping_rows_facts {atf_cols fb_cols : List String}
    {ov : List (String × String)} {q : ℚ} {res : MapState}
    (h : build_mapping atf_cols fb_cols ov q = Except.ok res) :
    ∀ r ∈ res.2, KindFacts atf_cols (atfNormMap atf_cols) q r := by
  unfold build_mapping at h
  refine pass2_rows_facts fb_cols _ res h ?_
  refine pass1_rows_facts ov ([], []) ?_
  intro r hr
  simp at hr

/-- Rows whose target was overridden carry an override kind: the target is
registered in the pass-1 mapping, so pass 2 never touches it. -/
theorem build_mapping_override_rows {atf_cols fb_cols : List String}
    {ov : List (String × String)} {q : ℚ} {res : MapState}
    (h : build_mapping atf_cols fb_cols ov q = Except.ok res) :
    ∀ r ∈ res.2, r.1 ∈ ov.map Prod.fst →
      (r.2.2 = "OVERRIDE" ∨ r.2.2 = "OVERRIDE(norm)" ∨ r.2.2 = "OVERRIDE-NOTFOUND") := by
  unfold build_mapping at h
  intro r hr hrov
  rcases pass2_rows_partition fb_cols _ res h r hr with hmem | ⟨hfr, _⟩
  · rcases pass1_rows_kinds atf_cols (atfNormMap atf_cols) ov ([], []) r hmem with hm | hk
    · simp at hm
    · exact hk
  · exfalso
    apply hfr
    rw [pass1_keys]
    exact Or.inr hrov

/-! ## Per-row consequences of the kind facts -/

theorem rowVal_none_iff (r : Row) :
    rowVal r = none ↔ (r.2.2 = "MISSING" ∨ r.2.2 = "OVERRIDE-NOTFOUND") := by
  unfold rowVal
  split
  · rename_i hm
    simp [hm]
  · rename_i hm
    simp [hm]

theorem rowVal_some (r : Row)
    (h : ¬ (r.2.2 = "MISSING" ∨ r.2.2 = "OVERRIDE-NOTFOUND")) :
    rowVal r = some r.2.1 := by
  unfold rowVal
  exact if_neg h

theorem kindFacts_src {atf_cols : List String} {q : ℚ} {r : Row}
    (hkf : KindFacts atf_cols (atfNormMap atf_cols) q r)
    (hnm : ¬ (r.2.2 = "MISSING" ∨ r.2.2 = "OVERRIDE-NOTFOUND")) :
    r.2.1 ∈ atf_cols := by
  rcases hkf with ⟨_, hm⟩ | ⟨_, k, hk⟩ | ⟨hk2, _⟩ | ⟨_, hk⟩ | ⟨_, k, hk⟩ | ⟨_, hfb⟩ |
    ⟨hk2, _⟩
  · exact hm
  · exact (atfNormMap_sound hk).1
  · exact absurd (Or.inr hk2) hnm
  · exact (atfNormMap_sound hk).1
  · exact (atfNormMap_sound hk).1
  · rcases hfb with ⟨k, _, _, hk, _⟩
    exact (atfNormMap_sound hk).1
  · exact absurd (Or.inl hk2) hnm

theorem kindFacts_lastOccurrence {atf_cols : List String} {q : ℚ} {r : Row}
    (hkf : KindFacts atf_cols (atfNormMap atf_cols) q r)
    (hkind : r.2.2 = "OVERRIDE(norm)" ∨ r.2.2 = "DIRECT" ∨ r.2.2 = "ALIAS" ∨
      r.2.2 = "FUZZY") :
    (atf_cols.filter (fun c => norm c = norm r.2.1)).getLast? = some r.2.1 := by
  rcases hkf with ⟨hk, _⟩ | ⟨_, k, hkey⟩ | ⟨hk, _⟩ | ⟨_, hkey⟩ | ⟨_, k, hkey⟩ |
    ⟨_, hfb⟩ | ⟨hk, _, _⟩
  · rw [hk] at hkind
    rcases hkind with h | h | h | h <;> exact absurd h (by decide)
  · exact (atfNormMap_sound hkey).2.2
  · rw [hk] at hkind
    rcases hkind with h | h | h | h <;> exact absurd h (by decide)
  · exact (atfNormMap_sound hkey).2.2
  · exact (atfNormMap_sound hkey).2.2
  · rcases hfb with ⟨k, _, _, hkey, _⟩
    exact (atfNormMap_sound hkey).2.2
  · rw [hk] at hkind
    rcases hkind with h | h | h | h <;> exact absurd h (by decide)

theorem kindFacts_missing_floor {atf_cols : List String} {idx : List (String × String)}
    {q : ℚ} {r : Row} (hkf : KindFacts atf_cols idx q r)
    (hkind : r.2.2 = "MISSING") :
    r.2.1 = "" ∧ ∀ k ∈ keysOf idx, fuzzyAccepts q k (norm r.1) = false := by
  rcases hkf with ⟨hk, _⟩ | ⟨hk, _⟩ | ⟨hk, _⟩ | ⟨hk, _⟩ | ⟨hk, _⟩ | ⟨hk, _⟩ |
    ⟨_, hsrc, hfloor⟩
  all_goals first
    | exact ⟨hsrc, hfloor⟩
    | (rw [hkind] at hk; exact absurd hk.symm (by decide))

theorem kindFacts_fuzzy_best {atf_cols : List String} {idx : List (String × String)}
    {q : ℚ} {r : Row} (hkf : KindFacts atf_cols idx q r)
    (hkind : r.2.2 = "FUZZY") : FuzzyBest idx q (norm r.1) r.2.1 := by
  rcases hkf with ⟨hk, _⟩ | ⟨hk, _⟩ | ⟨hk, _⟩ | ⟨hk, _⟩ | ⟨hk, _⟩ | ⟨_, hfb⟩ |
    ⟨hk, _, _⟩
  all_goals first
    | exact hfb
    | (rw [hkind] at hk; exact absurd hk.symm (by decide))

/-! ## `pass2Cols` on duplicate-free targets -/

theorem pass2Cols_of_nodup : ∀ (cols avoid : List String), cols.Nodup →
    (∀ c ∈ cols, c ∉ avoid) → pass2Cols avoid cols = cols := by
  intro cols
  induction cols with
  | nil => intro avoid _ _; rfl
  | cons c rest ih =>
    intro avoid hnd hdisj
    rw [List.nodup_cons] at hnd
    rw [pass2Cols, if_neg (hdisj c (List.mem_cons_self _ _))]
    refine congrArg (c :: ·) ?_
    apply ih _ hnd.2
    intro d hd
    intro hmem
    rcases List.mem_append.1 hmem with hm | hm
    · exact hdisj d (List.mem_cons_of_mem _ hd) hm
    · simp only [List.mem_singleton] at hm
      exact hnd.1 (hm ▸ hd)

/-! ## The guidance builder as a rule table -/

theorem chainEval_eq : ∀ (rules : List (List String × String)) (key : String)
    (acc : List String),
    chainEval rules key acc =
      acc ++ (rules.filter (fun g => g.1.any (fun k => strHasSub key k))).map Prod.snd := by
  intro rules
  induction rules with
  | nil => intro key acc; simp [chainEval]
  | cons g t ih =>
    intro key acc
    have hstep : chainEval (g :: t) key acc =
        chainEval t key
          (if g.1.any (fun k => strHasSub key k) then acc ++ [g.2] else acc) := rfl
    rw [hstep]
    by_cases hc : g.1.any (fun k => strHasSub key k) = true
    · rw [if_pos hc, ih, List.filter_cons, if_pos hc]
      simp
    · rw [if_neg hc, ih, List.filter_cons, if_neg hc]

/-- The source's fourteen-`if` hint accumulation equals evaluating the rule
table in order and falling back to the generic hint when nothing matched. -/
theorem guidanceHints_eq (c : String) :
    guidanceHints c =
      if matchedHints c = [] then [fallbackHint] else matchedHints c := by
  have h1 : guidanceHints c =
      (if chainEval guidanceRules (pyLower c) [] = [] then [fallbackHint]
        else chainEval guidanceRules (pyLower c) []) := rfl
  rw [h1, chainEval_eq]
  simp only [List.nil_append]
  rfl

/-! ## Which columns get a guidance row -/

theorem missingList_unresolved {atf_cols fb_cols : List String}
    {ov : List (String × String)} {q : ℚ} {res : MapState}
    (h : build_mapping atf_cols fb_cols ov q = Except.ok res)
    (hnd : (ov.map Prod.fst).Nodup) (hne : "" ∉ atf_cols) :
    missingList fb_cols res.1 = fb_cols.filter (fun c => isUnresolvedRow res.2 c) := by
  unfold missingList
  apply List.filter_congr
  intro c hc
  rcases build_mapping_covers h c hc with ⟨row, hrowmem, hrow1⟩
  have hinv := build_mapping_inv hnd h
  have hlink := (hinv.2.2 row hrowmem).2
  have hkf := (hinv.2.2 row hrowmem).1
  have hgetrow : getKey res.2 c = some row.2 := by
    apply getKey_of_mem_nodup
    · exact hinv.1
    · rw [← hrow1]
      exact hrowmem
  rw [hrow1] at hlink
  unfold pyFalsyGet isUnresolvedRow
  rw [hlink, hgetrow]
  by_cases hm : row.2.2 = "MISSING" ∨ row.2.2 = "OVERRIDE-NOTFOUND"
  · have hv : rowVal row = none := (rowVal_none_iff row).2 hm
    rw [hv]
    simp [hm]
  · have hv : rowVal row = some row.2.1 := rowVal_some row hm
    rw [hv]
    have hsrc : row.2.1 ∈ atf_cols := kindFacts_src hkf hm
    have hne2 : ¬ (row.2.1 = "") := fun he => hne (he ▸ hsrc)
    simp [hm, hne2]

theorem kindFacts_notfound_src {atf_cols : List String}
    {idx : List (String × String)} {q : ℚ} {r : Row}
    (hkf : KindFacts atf_cols idx q r) (hkind : r.2.2 = "OVERRIDE-NOTFOUND") :
    r.2.1 = "" := by
  rcases hkf with ⟨hk, _⟩ | ⟨hk, _⟩ | ⟨_, hsrc⟩ | ⟨hk, _⟩ | ⟨hk, _⟩ | ⟨hk, _⟩ |
    ⟨hk, _, _⟩
  all_goals first
    | exact hsrc
    | (rw [hkind] at hk; exact absurd hk.symm (by decide))

/-! # Claims -/

/-- **C1, counterexample.**  As stated, the claim is false: with
`overrides = {"B": "x"}` and `targetColumns = ["A", "A", "B"]` the trace has
two entries, not three, and starts with the overridden column `B`, not with
`A` — override entries come first (in override order) and a duplicate target
occurrence is skipped, so the trace is neither one-per-target nor in target
order. -/
theorem claim_c1_counterexample :
    build_mapping [] ["A", "A", "B"] [("B", "x")] (mkRat 84 100) =
      Except.ok ([("B", none), ("A", none)],
        [("B", "", "OVERRIDE-NOTFOUND"), ("A", "", "MISSING")]) ∧
    ¬ (([("B", "", "OVERRIDE-NOTFOUND"), ("A", "", "MISSING")] : List Row).map
        (fun r => r.1) = ["A", "A", "B"]) := by
  exact ⟨rfl, by decide⟩

/-- **C1, amended.**  The `details` trace produced by `build_mapping`
contains one entry per override pair, in override order, followed by one
entry per first occurrence of each non-overridden target column, in target
order; in particular, when `overrides` is empty and `targetColumns` is
duplicate-free, it has exactly one entry per target column, in target-column
order. -/
theorem claim_c1_amended {atf_cols fb_cols : List String}
    {ov : List (String × String)} {q : ℚ} {res : MapState}
    (h : build_mapping atf_cols fb_cols ov q = Except.ok res) :
    res.2.map (fun r => r.1) =
      ov.map Prod.fst ++ pass2Cols (ov.map Prod.fst) fb_cols ∧
    (ov = [] → fb_cols.Nodup → res.2.map (fun r => r.1) = fb_cols) := by
  refine ⟨build_mapping_ids h, ?_⟩
  rintro rfl hnd
  rw [build_mapping_ids h]
  simp only [List.map_nil, List.nil_append]
  apply pass2Cols_of_nodup _ _ hnd
  intro c _ hc
  simp at hc

/-- **C1, witness** of the amended theorem at a concrete run. -/
theorem claim_c1_witness :
    (([("Model", some "Maker"), ("Manufacturer", some "Maker")],
      [("Model", "Maker", "OVERRIDE"), ("Manufacturer", "Maker", "ALIAS")]) :
        MapState).2.map (fun r => r.1) =
      [("Model", "Maker")].map Prod.fst ++
        pass2Cols ([("Model", "Maker")].map Prod.fst) ["Manufacturer", "Model"] ∧
    ([("Model", "Maker")] = ([] : List (String × String)) →
      (["Manufacturer", "Model"] : List String).Nodup →
      (([("Model", some "Maker"), ("Manufacturer", some "Maker")],
        [("Model", "Maker", "OVERRIDE"), ("Manufacturer", "Maker", "ALIAS")]) :
          MapState).2.map (fun r => r.1) = ["Manufacturer", "Model"]) :=
  claim_c1_amended
    (show build_mapping ["Maker"] ["Manufacturer", "Model"]
        [("Model", "Maker")] (mkRat 84 100) =
      Except.ok ([("Model", some "Maker"), ("Manufacturer", some "Maker")],
        [("Model", "Maker", "OVERRIDE"), ("Manufacturer", "Maker", "ALIAS")])
      from rfl)

/-- **C2.**  Every trace row whose target column appears among the override
keys carries one of the three override match kinds: overridden targets are
registered by pass 1 and pass 2 (direct/alias/fuzzy) never touches them —
in particular a not-found override is left unresolved, not retried. -/
theorem claim_c2_override_priority {atf_cols fb_cols : List String}
    {ov : List (String × String)} {q : ℚ} {res : MapState} {c : String}
    (h : build_mapping atf_cols fb_cols ov q = Except.ok res)
    (hc : c ∈ ov.map Prod.fst) :
    ∀ r ∈ res.2, r.1 = c →
      (r.2.2 = "OVERRIDE" ∨ r.2.2 = "OVERRIDE(norm)" ∨ r.2.2 = "OVERRIDE-NOTFOUND") :=
  fun r hr hrc => build_mapping_override_rows h r hr (hrc ▸ hc)

/-- **C2, witness**: scenario B — `overrides={"Manufacturer": "Brand"}` with
`sourceColumns=["Brand", "Maker"]` resolves Manufacturer as OVERRIDE→Brand,
not ALIAS→Maker. -/
theorem claim_c2_witness :
    (("Manufacturer", "Brand", "OVERRIDE") : Row).2.2 = "OVERRIDE" ∨
    (("Manufacturer", "Brand", "OVERRIDE") : Row).2.2 = "OVERRIDE(norm)" ∨
    (("Manufacturer", "Brand", "OVERRIDE") : Row).2.2 = "OVERRIDE-NOTFOUND" :=
  claim_c2_override_priority
    (show build_mapping ["Brand", "Maker"] ["Manufacturer"]
        [("Manufacturer", "Brand")] (mkRat 84 100) =
      Except.ok ([("Manufacturer", some "Brand")],
        [("Manufacturer", "Brand", "OVERRIDE")]) from rfl)
    (by decide) ("Manufacturer", "Brand", "OVERRIDE") (by simp) rfl

/-- **C3, counterexample.**  As stated, the claim is false: with
`sourceColumns = ["AB", "A b"]` (both normalize to `"ab"`) the direct match
for target `"Ab"` resolves to the **last** occurrence `"A b"`, not the first
occurrence `"AB"` — the dict comprehension of src line 122 lets later
duplicates overwrite the value. -/
theorem claim_c3_counterexample :
    build_mapping ["AB", "A b"] ["Ab"] [] (mkRat 84 100) =
      Except.ok ([("Ab", some "A b")], [("Ab", "A b", "DIRECT")]) ∧
    norm "AB" = norm "A b" ∧ "A b" ≠ "AB" := by
  exact ⟨rfl, rfl, by decide⟩

/-- **C3, amended.**  Every resolution that goes through the normalized
source index (OVERRIDE_NORMALIZED, DIRECT, ALIAS, FUZZY) resolves to the
**last** column of `sourceColumns` with that normalized key (the key's
position in the index follows the first occurrence, but its value is
overwritten by later duplicates). -/
theorem claim_c3_amended {atf_cols fb_cols : List String}
    {ov : List (String × String)} {q : ℚ} {res : MapState}
    (h : build_mapping atf_cols fb_cols ov q = Except.ok res) :
    ∀ r ∈ res.2,
      (r.2.2 = "OVERRIDE(norm)" ∨ r.2.2 = "DIRECT" ∨ r.2.2 = "ALIAS" ∨
        r.2.2 = "FUZZY") →
      (atf_cols.filter (fun c => norm c = norm r.2.1)).getLast? = some r.2.1 :=
  fun r hr hk => kindFacts_lastOccurrence (build_mapping_rows_facts h r hr) hk

/-- **C3, witness** of the amended theorem at the duplicate-key run. -/
theorem claim_c3_witness :
    ((["AB", "A b"].filter (fun c => norm c = norm (("Ab", "A b", "DIRECT") : Row).2.1)).getLast? =
      some (("Ab", "A b", "DIRECT") : Row).2.1) :=
  claim_c3_amended
    (show build_mapping ["AB", "A b"] ["Ab"] [] (mkRat 84 100) =
      Except.ok ([("Ab", some "A b")], [("Ab", "A b", "DIRECT")]) from rfl)
    ("Ab", "A b", "DIRECT") (by simp) (Or.inr (Or.inl rfl))

/-- **C4, counterexample.**  As stated, the claim is false: `fuzzyCutoff` is
**not** used without bounds validation — `difflib.get_close_matches` raises
`ValueError` for a cutoff outside `[0, 1]`, so `build_mapping` raises as
soon as some target column reaches the fuzzy stage. -/
theorem claim_c4_counterexample :
    build_mapping [] ["X"] [] 2 =
      Except.error "ValueError: cutoff must be in [0.0, 1.0]" := rfl

/-- **C4, amended.**  For every `fuzzyCutoff` in `[0, 1]`, `build_mapping`
returns normally, and every target column ends with a recorded trace entry;
outside `[0, 1]` the `ValueError` of `get_close_matches` can propagate (see
the counterexample). -/
theorem claim_c4_amended (atf_cols fb_cols : List String)
    (ov : List (String × String)) {q : ℚ} (h0 : 0 ≤ q) (h1 : q ≤ 1) :
    ∃ res, build_mapping atf_cols fb_cols ov q = Except.ok res ∧
      ∀ c ∈ fb_cols, ∃ row ∈ res.2, row.1 = c := by
  rcases pass2_ok_of_cutoff h0 h1 fb_cols
      (pass1 atf_cols (atfNormMap atf_cols) ov ([], [])) with ⟨res, hres⟩
  have hb : build_mapping atf_cols fb_cols ov q = Except.ok res := hres
  exact ⟨res, hb, build_mapping_covers hb⟩

/-- **C4, witness** of the amended theorem at a concrete in-range cutoff. -/
theorem claim_c4_witness :
    ∃ res, build_mapping ["Maker"] ["Manufacturer"] [] (mkRat 84 100) = Except.ok res ∧
      ∀ c ∈ ["Manufacturer"], ∃ row ∈ res.2, row.1 = c :=
  claim_c4_amended ["Maker"] ["Manufacturer"] [] (by norm_num) (by norm_num)

/-- **C5.**  `norm` is a total function on strings: it returns the
lowercase, alphanumeric-only, order-preserving form of its input (the empty
string yields the empty key), it is idempotent, and it is case-insensitive
(`norm x = norm (x.lower())`). -/
theorem claim_c5_norm_total_idem_caseless :
    (∀ s : String, norm (norm s) = norm s) ∧
    (∀ s : String, norm (pyLower s) = norm s) ∧
    norm "" = "" ∧
    (∀ s : String, (norm s).data = (s.data.map pyLowerChar).filter Char.isAlphanum) :=
  ⟨norm_idem, norm_pyLower, rfl, fun _ => rfl⟩

/-- **C6, counterexample.**  As stated, the claim is false on the
tie-breaking rule: with source keys `ax` and `xb` and target key `ab`, both
keys score exactly `1/2`; at cutoff `1/2` the code records FUZZY→`xb` — the
lexicographically **greatest** key (Python `nlargest` on `(score, key)`
tuples) — not the earliest position `ax`. -/
theorem claim_c6_counterexample :
    build_mapping ["ax", "xb"] ["ab"] [] (mkRat 1 2) =
      Except.ok ([("ab", some "xb")], [("ab", "xb", "FUZZY")]) ∧
    fuzzyScore "ax" (norm "ab") = fuzzyScore "xb" (norm "ab") ∧
    fuzzyAccepts (mkRat 1 2) "ax" (norm "ab") = true ∧
    keysOf (atfNormMap ["ax", "xb"]) = ["ax", "xb"] ∧
    "xb" ≠ "ax" := by
  exact ⟨rfl, by decide, by decide, rfl, by decide⟩

/-- **C6, amended.**  For every MISSING entry, no key of the source index
passes the implementation's cutoff test (`real_quick_ratio`, `quick_ratio`
and `ratio` all at least `fuzzyCutoff`); and every FUZZY entry resolves to
the value of an accepted key that is maximal under Python `(score, key)`
comparison — best score, ties broken by the lexicographically greatest key,
not by earliest position. -/
theorem claim_c6_amended {atf_cols fb_cols : List String}
    {ov : List (String × String)} {q : ℚ} {res : MapState}
    (h : build_mapping atf_cols fb_cols ov q = Except.ok res) :
    ∀ r ∈ res.2,
      (r.2.2 = "MISSING" →
        ∀ k ∈ keysOf (atfNormMap atf_cols), fuzzyAccepts q k (norm r.1) = false) ∧
      (r.2.2 = "FUZZY" → FuzzyBest (atfNormMap atf_cols) q (norm r.1) r.2.1) := by
  intro r hr
  have hkf := build_mapping_rows_facts h r hr
  exact ⟨fun hk => (kindFacts_missing_floor hkf hk).2,
    fun hk => kindFacts_fuzzy_best hkf hk⟩

/-- **C6, witness** of the amended theorem at the tied run. -/
theorem claim_c6_witness :
    ((("ab", "xb", "FUZZY") : Row).2.2 = "MISSING" →
      ∀ k ∈ keysOf (atfNormMap ["ax", "xb"]),
        fuzzyAccepts (mkRat 1 2) k (norm (("ab", "xb", "FUZZY") : Row).1) = false) ∧
    ((("ab", "xb", "FUZZY") : Row).2.2 = "FUZZY" →
      FuzzyBest (atfNormMap ["ax", "xb"]) (mkRat 1 2)
        (norm (("ab", "xb", "FUZZY") : Row).1) (("ab", "xb", "FUZZY") : Row).2.1) :=
  claim_c6_amended
    (show build_mapping ["ax", "xb"] ["ab"] [] (mkRat 1 2) =
      Except.ok ([("ab", some "xb")], [("ab", "xb", "FUZZY")]) from rfl)
    ("ab", "xb", "FUZZY") (by simp)

/-- **C7, counterexample.**  As stated, the claim is false: the report
builder selects the guidance rows by the falsiness of the mapping value
(src line 250), so an OVERRIDE-NOTFOUND target that is a FastBound column
**does** get a remediation row — here `Manufacturer`, whose only trace entry
is OVERRIDE-NOTFOUND (not MISSING), receives the manufacturer hint. -/
theorem claim_c7_counterexample :
    build_mapping [] ["Manufacturer"] [("Manufacturer", "Nope")] (mkRat 84 100) =
      Except.ok ([("Manufacturer", none)],
        [("Manufacturer", "", "OVERRIDE-NOTFOUND")]) ∧
    guidanceRows ["Manufacturer"] [("Manufacturer", none)] =
      [("Manufacturer", "Fabricante – marcação do frame/receiver; nota do fornecedor.")] ∧
    (("Manufacturer", "", "OVERRIDE-NOTFOUND") : Row).2.2 ≠ "MISSING" := by
  exact ⟨rfl, rfl, by decide⟩

/-- **C7, amended.**  The report builder emits a remediation-guidance row
exactly for the target columns left without a resolved source — MISSING
**and** OVERRIDE-NOTFOUND kinds alike (provided no source column name is
empty); each row's text is the concatenation, in rule-definition order with
the fixed separator `" | "`, of the hints of every keyword rule matching the
lowercased column, or the single generic fallback hint when no rule
matches. -/
theorem claim_c7_amended {atf_cols fb_cols : List String}
    {ov : List (String × String)} {q : ℚ} {res : MapState}
    (h : build_mapping atf_cols fb_cols ov q = Except.ok res)
    (hnd : (ov.map Prod.fst).Nodup) (hne : "" ∉ atf_cols) :
    guidanceRows fb_cols res.1 =
      (fb_cols.filter (fun c => isUnresolvedRow res.2 c)).map
        (fun c => (c, String.intercalate " | "
          (if matchedHints c = [] then [fallbackHint] else matchedHints c))) := by
  unfold guidanceRows
  rw [missingList_unresolved h hnd hne]
  apply List.map_congr_left
  intro c _
  rw [guidanceHints_eq]

/-- **C7, witness** of the amended theorem at a run with one
OVERRIDE-NOTFOUND target and one MISSING target. -/
theorem claim_c7_witness :
    guidanceRows ["Manufacturer", "Price USD"]
        (([("Manufacturer", none), ("Price USD", none)],
          [("Manufacturer", "", "OVERRIDE-NOTFOUND"), ("Price USD", "", "MISSING")]) :
            MapState).1 =
      (["Manufacturer", "Price USD"].filter
        (fun c => isUnresolvedRow
          (([("Manufacturer", none), ("Price USD", none)],
            [("Manufacturer", "", "OVERRIDE-NOTFOUND"), ("Price USD", "", "MISSING")]) :
              MapState).2 c)).map
        (fun c => (c, String.intercalate " | "
          (if matchedHints c = [] then [fallbackHint] else matchedHints c))) :=
  claim_c7_amended
    (show build_mapping ["Maker"] ["Manufacturer", "Price USD"]
        [("Manufacturer", "Nope")] (mkRat 84 100) =
      Except.ok ([("Manufacturer", none), ("Price USD", none)],
        [("Manufacturer", "", "OVERRIDE-NOTFOUND"), ("Price USD", "", "MISSING")])
      from rfl)
    (by decide) (by decide)

/-- **C8.**  The claim describes the *intended* behaviour (argparse help:
"Falhar (exit 2)"), but the code cannot exit 2: the strict-failure branch
(src lines 292-293) evaluates `sys.stderr` and `sys.exit`, yet the module
never imports `sys`, so the branch raises `NameError` and the interpreter
terminates with status 1 and a traceback.  No success confirmation is
emitted either way; without `--strict`, or with every FastBound column
mapped, the run reaches the success logs. -/
theorem claim_c8_strict_crash :
    build_mapping [] ["A"] [] (mkRat 84 100) =
      Except.ok ([("A", none)], [("A", "", "MISSING")]) ∧
    strictTail true ["A"] [("A", none)] = ProcOutcome.nameErrorCrash ∧
    ProcOutcome.nameErrorCrash ≠ ProcOutcome.exit2 ∧
    strictTail false ["A"] [("A", none)] = ProcOutcome.success ∧
    strictTail true ["A"] [("A", some "B")] = ProcOutcome.success := by
  exact ⟨rfl, rfl, by decide, rfl, rfl⟩

/-- **C9.**  The claim matches the function's own docstring, but the code
cannot load JSON override files: the `.json` branch calls `json.loads`
while the module never imports `json`, so any existing `.json` override
file raises `NameError` instead of returning the parsed mapping.  The CSV
branches and the unsupported-extension branch behave as claimed. -/
theorem claim_c9_read_overrides :
    read_overrides true ⟨true, ".json", [], [], []⟩ =
      Except.error (OvErr.nameError "name json is not defined") ∧
    read_overrides true ⟨true, ".csv", ["Other"], [], []⟩ =
      Except.error (OvErr.valueError
        "CSV de override deve ter colunas FastBound Column e ATF Source.") ∧
    read_overrides true ⟨true, ".xml", [], [], []⟩ =
      Except.error (OvErr.valueError
        "Formato de override não suportado. Use CSV, JSON ou YAML.") ∧
    read_overrides true
        ⟨true, ".csv", ["FastBound Column", "ATF Source"],
          [["Manufacturer", "Maker"]], []⟩ =
      Except.ok [("Manufacturer", "Maker")] := by
  exact ⟨rfl, rfl, rfl, rfl⟩

/-- **C10.**  Coherence of the two outputs of `build_mapping`: each column
appears at most once in the trace; a trace row has kind MISSING or
OVERRIDE-NOTFOUND exactly when the final mapping binds its column to `None`
(and then its source field is empty); every other row's source field equals
the mapping value and is an element of `sourceColumns`. -/
theorem claim_c10_coherence {atf_cols fb_cols : List String}
    {ov : List (String × String)} {q : ℚ} {res : MapState}
    (hnd : (ov.map Prod.fst).Nodup)
    (h : build_mapping atf_cols fb_cols ov q = Except.ok res) :
    (res.2.map (fun r => r.1)).Nodup ∧
    ∀ r ∈ res.2,
      ((r.2.2 = "MISSING" ∨ r.2.2 = "OVERRIDE-NOTFOUND") ↔
        getKey res.1 r.1 = some none) ∧
      ((r.2.2 = "MISSING" ∨ r.2.2 = "OVERRIDE-NOTFOUND") → r.2.1 = "") ∧
      (¬ (r.2.2 = "MISSING" ∨ r.2.2 = "OVERRIDE-NOTFOUND") →
        getKey res.1 r.1 = some (some r.2.1) ∧ r.2.1 ∈ atf_cols) := by
  have hinv := build_mapping_inv hnd h
  refine ⟨hinv.1, ?_⟩
  intro r hr
  have hlink := (hinv.2.2 r hr).2
  have hkf := (hinv.2.2 r hr).1
  refine ⟨⟨?_, ?_⟩, ?_, ?_⟩
  · intro hm
    rw [hlink, (rowVal_none_iff r).2 hm]
  · intro hg
    rw [hlink] at hg
    injection hg with hg
    exact (rowVal_none_iff r).1 hg
  · rintro (hm | hm)
    · exact (kindFacts_missing_floor hkf hm).1
    · exact kindFacts_notfound_src hkf hm
  · intro hm
    exact ⟨by rw [hlink, rowVal_some r hm], kindFacts_src hkf hm⟩

/-- **C10, witness** at a concrete alias-resolved run. -/
theorem claim_c10_witness :
    (([("Manufacturer", "Maker", "ALIAS")] : List Row).map (fun r => r.1)).Nodup ∧
    (((("Manufacturer", "Maker", "ALIAS") : Row).2.2 = "MISSING" ∨
        (("Manufacturer", "Maker", "ALIAS") : Row).2.2 = "OVERRIDE-NOTFOUND") ↔
      getKey ([("Manufacturer", some "Maker")] : List (String × Option String))
        (("Manufacturer", "Maker", "ALIAS") : Row).1 = some none) ∧
    (((("Manufacturer", "Maker", "ALIAS") : Row).2.2 = "MISSING" ∨
        (("Manufacturer", "Maker", "ALIAS") : Row).2.2 = "OVERRIDE-NOTFOUND") →
      (("Manufacturer", "Maker", "ALIAS") : Row).2.1 = "") ∧
    (¬ ((("Manufacturer", "Maker", "ALIAS") : Row).2.2 = "MISSING" ∨
        (("Manufacturer", "Maker", "ALIAS") : Row).2.2 = "OVERRIDE-NOTFOUND") →
      getKey ([("Manufacturer", some "Maker")] : List (String × Option String))
          (("Manufacturer", "Maker", "ALIAS") : Row).1 =
        some (some (("Manufacturer", "Maker", "ALIAS") : Row).2.1) ∧
      (("Manufacturer", "Maker", "ALIAS") : Row).2.1 ∈ ["Maker"]) :=
  have hrun : build_mapping ["Maker"] ["Manufacturer"] [] (mkRat 84 100) =
      Except.ok ([("Manufacturer", some "Maker")],
        [("Manufacturer", "Maker", "ALIAS")]) := rfl
  ⟨(claim_c10_coherence (by decide) hrun).1,
    (claim_c10_coherence (by decide) hrun).2 ("Manufacturer", "Maker", "ALIAS") (by simp)⟩

end FastboundImporter
